import Mathlib

/-!
Verification of the mutagent dynamic module registry and patch/versioning
engine, together with the class-identity-preservation mechanism.

The definitions below are a shallow embedding of
`src/mutagent/runtime/module_manager.py` (module registry, patch, save,
cleanup) and `src/mutagent/base.py` (`MutagentMeta`, `_update_class_inplace`,
`_migrate_forwardpy_registries`).  Python dicts are embedded as association
lists with insertion-order-preserving update; `sys.modules` and
`linecache.cache` are components of an explicit state record; executing
arbitrary Python source is abstracted as a function from the module
namespace to a new namespace together with a success flag ("exec as you
go": on failure the partially-updated namespace remains).  The capability
runtime (the external `forwardpy` package, which is not part of this
repository) is modelled from the spec where needed.
-/

namespace Mutagent

/-! ### Association lists (embedding of Python `dict`) -/

/-- Lookup in an association list, embedding `d.get(k)`. -/
def getA {κ α : Type} [DecidableEq κ] : List (κ × α) → κ → Option α
  | [], _ => none
  | (k, v) :: rest, q => if k = q then some v else getA rest q

/-- Update/insert in an association list, embedding `d[k] = v`
(insertion order preserved, like a Python dict). -/
def setA {κ α : Type} [DecidableEq κ] : List (κ × α) → κ → α → List (κ × α)
  | [], q, v => [(q, v)]
  | (k, w) :: rest, q, v =>
    if k = q then (k, v) :: rest else (k, w) :: setA rest q v

/-- Key removal, embedding `d.pop(k, None)` / `del d[k]`. -/
def removeA {κ α : Type} [DecidableEq κ] : List (κ × α) → κ → List (κ × α)
  | [], _ => []
  | (k, w) :: rest, q =>
    if k = q then removeA rest q else (k, w) :: removeA rest q

/-- Boolean membership test for lists of strings (embedding `x in s`). -/
def memS : List String → String → Bool
  | [], _ => false
  | s :: rest, q => if s = q then true else memS rest q

@[simp] theorem getA_nil {κ α : Type} [DecidableEq κ] (q : κ) :
    getA ([] : List (κ × α)) q = none := rfl

@[simp] theorem getA_setA_self {κ α : Type} [DecidableEq κ]
    (l : List (κ × α)) (k : κ) (v : α) : getA (setA l k v) k = some v := by
  induction l with
  | nil => simp [getA, setA]
  | cons kv rest ih =>
    obtain ⟨k', w⟩ := kv
    by_cases h : k' = k
    · subst h; simp [getA, setA]
    · simp [getA, setA, h, ih]

theorem getA_setA_ne {κ α : Type} [DecidableEq κ]
    (l : List (κ × α)) (k q : κ) (v : α) (h : q ≠ k) :
    getA (setA l k v) q = getA l q := by
  have hkq : k ≠ q := Ne.symm h
  induction l with
  | nil => simp [getA, setA, hkq]
  | cons kv rest ih =>
    obtain ⟨k', w⟩ := kv
    by_cases h1 : k' = k
    · subst h1
      simp [getA, setA, hkq]
    · simp [getA, setA, h1, ih]

@[simp] theorem getA_removeA_self {κ α : Type} [DecidableEq κ]
    (l : List (κ × α)) (k : κ) : getA (removeA l k) k = none := by
  induction l with
  | nil => simp [removeA]
  | cons kv rest ih =>
    obtain ⟨k', w⟩ := kv
    by_cases h : k' = k
    · simp [removeA, h, ih]
    · simp [removeA, getA, h, ih]

theorem getA_removeA_ne {κ α : Type} [DecidableEq κ]
    (l : List (κ × α)) (k q : κ) (h : q ≠ k) :
    getA (removeA l k) q = getA l q := by
  have hkq : k ≠ q := Ne.symm h
  induction l with
  | nil => simp [removeA]
  | cons kv rest ih =>
    obtain ⟨k', w⟩ := kv
    by_cases h1 : k' = k
    · subst h1
      simp [removeA, getA, hkq, ih]
    · simp [removeA, getA, h1, ih]

theorem memS_true_iff (l : List String) (q : String) :
    memS l q = true ↔ q ∈ l := by
  induction l with
  | nil => simp [memS]
  | cons s rest ih =>
    by_cases h : s = q
    · subst h; simp [memS]
    · simp [memS, h, ih, Ne.symm h]

theorem memS_false_iff (l : List String) (q : String) :
    memS l q = false ↔ q ∉ l := by
  rw [← memS_true_iff]
  cases h : memS l q <;> simp

/-! ### Dotted module paths

`str.split(".")` / `".".join(...)` are embedded character-by-character so
that the round-trip and length facts needed about them are provable. -/

/-- Split a character list at every `'.'` (embedding `s.split(".")`;
always returns at least one segment, like the Python method). -/
def splitDots : List Char → List (List Char)
  | [] => [[]]
  | c :: rest =>
    match splitDots rest with
    | [] => [[]]
    | seg :: segs =>
      if c = '.' then [] :: seg :: segs else (c :: seg) :: segs

/-- Join character-list segments with `'.'` (embedding `".".join(...)`). -/
def joinDotsC : List (List Char) → List Char
  | [] => []
  | [s] => s
  | s :: t :: rest => s ++ '.' :: joinDotsC (t :: rest)

theorem splitDots_ne_nil (cs : List Char) : splitDots cs ≠ [] := by
  cases cs with
  | nil => simp [splitDots]
  | cons c rest =>
    simp only [splitDots]
    cases h : splitDots rest with
    | nil => simp
    | cons seg segs =>
      by_cases hc : c = '.' <;> simp [hc]

theorem joinDotsC_splitDots (cs : List Char) :
    joinDotsC (splitDots cs) = cs := by
  induction cs with
  | nil => simp [splitDots, joinDotsC]
  | cons c rest ih =>
    cases h : splitDots rest with
    | nil => exact absurd h (splitDots_ne_nil rest)
    | cons seg segs =>
      rw [h] at ih
      by_cases hc : c = '.'
      · subst hc
        simp only [splitDots, h, if_pos rfl]
        cases segs <;> simp [joinDotsC] at ih ⊢ <;> exact ih
      · simp only [splitDots, h, if_neg hc]
        cases segs <;> simp [joinDotsC] at ih ⊢ <;> simp [ih]

theorem joinDotsC_concat (xs : List (List Char)) (a : List Char)
    (h : xs ≠ []) : joinDotsC (xs ++ [a]) = joinDotsC xs ++ '.' :: a := by
  induction xs with
  | nil => exact absurd rfl h
  | cons s rest ih =>
    cases rest with
    | nil => simp [joinDotsC]
    | cons t rest' =>
      have h2 := ih (by simp)
      have e2 : (t :: rest') ++ [a] = t :: (rest' ++ [a]) := rfl
      rw [e2] at h2
      show s ++ '.' :: joinDotsC (t :: (rest' ++ [a]))
          = (s ++ '.' :: joinDotsC (t :: rest')) ++ '.' :: a
      rw [h2]
      simp

/-- The dotted-path segments of a module path (embedding
`module_path.split(".")`). -/
def pathParts (s : String) : List String :=
  (splitDots s.data).map String.mk

/-- Join path segments with `"."` (embedding `".".join(parts)`). -/
def joinDots : List String → String
  | [] => ""
  | [p] => p
  | p :: q :: rest => p ++ "." ++ joinDots (q :: rest)

theorem string_mk_inj (a b : List Char) (h : String.mk a = String.mk b) :
    a = b := by
  have := congrArg String.data h
  exact this

theorem joinDots_map_mk (l : List (List Char)) :
    joinDots (l.map String.mk) = String.mk (joinDotsC l) := by
  induction l with
  | nil => rfl
  | cons s rest ih =>
    cases rest with
    | nil => rfl
    | cons t rest' =>
      simp only [List.map_cons, joinDots, joinDotsC] at ih ⊢
      rw [ih]
      show String.mk s ++ String.mk ['.'] ++ String.mk (joinDotsC (t :: rest'))
          = String.mk (s ++ '.' :: joinDotsC (t :: rest'))
      have e : ∀ (a b : List Char), String.mk a ++ String.mk b = String.mk (a ++ b) :=
        fun a b => rfl
      rw [e, e]
      simp

theorem joinDots_pathParts (s : String) : joinDots (pathParts s) = s := by
  rw [pathParts, joinDots_map_mk, joinDotsC_splitDots]

theorem pathParts_ne_nil (s : String) : pathParts s ≠ [] := by
  simp [pathParts, splitDots_ne_nil]

/-- The parent prefix of a dotted path: `joinDots` of all but the last
segment.  For a single-segment path this is `joinDots [] = ""` and is
never used by the code (guarded by a "has a dot" test). -/
def parentPath (s : String) : String :=
  joinDots (pathParts s).dropLast

/-- A dotted path with at least two segments differs from its parent
prefix (the parent is strictly shorter). -/
theorem parentPath_ne (s : String) (h : 2 ≤ (pathParts s).length) :
    parentPath s ≠ s := by
  intro heq
  have hl2 : 2 ≤ (splitDots s.data).length := by
    have e : (pathParts s).length = (splitDots s.data).length := by
      simp [pathParts]
    omega
  have hlne : splitDots s.data ≠ [] := splitDots_ne_nil s.data
  have hne : (splitDots s.data).dropLast ≠ [] := by
    intro hz
    have := congrArg List.length hz
    simp [List.length_dropLast] at this
    omega
  have hsplit : (splitDots s.data).dropLast
      ++ [(splitDots s.data).getLast hlne] = splitDots s.data :=
    List.dropLast_append_getLast hlne
  have h1 : parentPath s = String.mk (joinDotsC (splitDots s.data).dropLast) := by
    rw [parentPath, pathParts, ← List.map_dropLast, joinDots_map_mk]
  have hdata : joinDotsC (splitDots s.data).dropLast = s.data := by
    have h2 : String.mk (joinDotsC (splitDots s.data).dropLast) = String.mk s.data := by
      rw [← h1, heq]
    exact string_mk_inj _ _ h2
  have hfull : joinDotsC (splitDots s.data) = s.data := joinDotsC_splitDots s.data
  rw [← hsplit, joinDotsC_concat _ _ hne, hdata] at hfull
  have := congrArg List.length hfull
  simp at this

/-! ### Values and module namespaces

A module's namespace (`module.__dict__`) is an association list from
attribute names to values.  Only value shapes the manager inspects are
distinguished: strings, `_VirtualLoader` instances, objects carrying a
`__code__` attribute, references to other modules (set by
`_attach_to_parent`), the empty list (`pkg.__path__ = []`), and opaque
other objects. -/

/-- Embedding of a Python code object: its `co_filename` together with the
code objects nested in `co_consts`. -/
inductive Code where
  | mk (co_filename : String) (co_consts : List Code)

/-- The `co_filename` of a code object. -/
def Code.co_filename : Code → String
  | .mk f _ => f

inductive Value where
  | str (s : String)
  | vloader (source : String) (filename : String)
  | func (code : Code)
  | moduleRef (path : String)
  | emptyList
  | obj (n : Nat)

abbrev Dict := List (String × Value)

mutual

/-- Embedding of `_replace_code_filename`: recursively rebuild a code
object with `co_filename = new_filename` (like the source, the `old`
argument is not consulted) and the replacement mapped over `co_consts`. -/
def replaceCodeFilename : Code → String → String → Code
  | Code.mk _ cs, old, new_filename =>
    Code.mk new_filename (replaceCodeList cs old new_filename)

/-- `replaceCodeFilename` mapped over a `co_consts` list. -/
def replaceCodeList : List Code → String → String → List Code
  | [], _, _ => []
  | c :: cs, old, new_filename =>
    replaceCodeFilename c old new_filename :: replaceCodeList cs old new_filename

end

mutual

/-- `allFiles f c` holds when every code object in the tree `c` (the
object itself and all transitively nested ones) has `co_filename = f`. -/
def allFiles (f : String) : Code → Bool
  | Code.mk g cs => (g == f) && allFilesList f cs

/-- `allFiles` over a `co_consts` list. -/
def allFilesList (f : String) : List Code → Bool
  | [] => true
  | c :: cs => allFiles f c && allFilesList f cs

end

/-! ### The module manager state -/

/-- Record of a single module patch operation (`PatchRecord`). -/
structure PatchRecord where
  module_path : String
  source : String
  version : Nat
  virtual_filename : String
deriving DecidableEq

/-- The process-wide state a `ModuleManager` instance operates on:
`sys.modules`, `linecache.cache`, and the manager's own four fields. -/
structure MMState where
  sysModules : List (String × Dict)
  history : List (String × List PatchRecord)
  versions : List (String × Nat)
  virtualPackages : List String
  patchedModules : List String
  linecache : List (String × String)

/-- A freshly constructed `ModuleManager()` operating on an interpreter
whose `sys.modules` and `linecache.cache` hold arbitrary prior entries. -/
def MMState.fresh (sysm : List (String × Dict))
    (lc : List (String × String)) : MMState :=
  { sysModules := sysm, history := [], versions := [],
    virtualPackages := [], patchedModules := [], linecache := lc }

/-- The virtual location identifier of a module path: the code's
f-string `mutagent://` followed by the dotted path, produced identically
at patch (line 65), save (line 192) and cleanup (line 218). -/
def mutagentVirtualFilename (module_path : String) : String :=
  "mutagent://" ++ module_path

/-- The attributes `_clear_module_namespace` preserves. -/
def preserveAttrs : List String :=
  ["__name__", "__loader__", "__package__", "__spec__",
   "__path__", "__file__", "__builtins__"]

/-- Embedding of `ModuleManager._clear_module_namespace`. -/
def clearModuleNamespace (d : Dict) : Dict :=
  d.filter (fun kv => memS preserveAttrs kv.1)

/-- The namespace `types.ModuleType(p)` plus the two attributes
`_ensure_parent_packages` sets on an auto-created package. -/
def pkgDict (p : String) : Dict :=
  [("__name__", Value.str p), ("__path__", Value.emptyList),
   ("__package__", Value.str p)]

/-- The proper dotted prefixes of a path, shortest first (the parents
`_ensure_parent_packages` iterates over). -/
def properPrefixes (module_path : String) : List String :=
  let parts := pathParts module_path
  (List.range (parts.length - 1)).map (fun i => joinDots (parts.take (i + 1)))

/-- Embedding of `ModuleManager._ensure_parent_packages`: register a
package namespace for every parent prefix absent from `sys.modules`,
recording it as auto-created. -/
def addPackages : MMState → List String → MMState
  | st, [] => st
  | st, q :: rest =>
    if (getA st.sysModules q).isSome then addPackages st rest
    else
      addPackages
        { st with sysModules := setA st.sysModules q (pkgDict q),
                  virtualPackages := st.virtualPackages ++ [q] } rest

/-- Embedding of `module_path.rpartition(".")[0] or module_path`. -/
def pkgName (module_path : String) : String :=
  if 2 ≤ (pathParts module_path).length then parentPath module_path
  else module_path

/-- The `sys.modules` table after `ModuleManager._attach_to_parent`:
when the path has a parent registered, the parent namespace gains an
attribute named after the last segment referring to the module. -/
def attachSys (sysm : List (String × Dict)) (module_path : String) :
    List (String × Dict) :=
  if 2 ≤ (pathParts module_path).length then
    let parent_path := parentPath module_path
    let child_name := (pathParts module_path).getLastD ""
    match getA sysm parent_path with
    | some pd =>
        let pd2 := setA pd child_name (Value.moduleRef module_path)
        setA sysm parent_path pd2
    | none => sysm
  else sysm

/-- Embedding of `ModuleManager._attach_to_parent`. -/
def attachToParent (st : MMState) (module_path : String) : MMState :=
  { st with sysModules := attachSys st.sysModules module_path }

/-- Append a string to a list unless already present (`set.add`). -/
def addIfAbsent (l : List String) (q : String) : List String :=
  if memS l q then l else l ++ [q]

/-- The state after the version bump and `_ensure_parent_packages`. -/
def patchStA (st : MMState) (module_path : String) : MMState :=
  let v1 := setA st.versions module_path ((getA st.versions module_path).getD 0 + 1)
  addPackages { st with versions := v1 } (properPrefixes module_path)

/-- The namespace the compiled source is executed against: the cleared
existing namespace (or a fresh `types.ModuleType(module_path)` one) with
the bookkeeping attributes `__name__`, `__file__`, `__loader__`,
`__package__` set. -/
def patchPreDict (st : MMState) (module_path source : String) : Dict :=
  let d0 := match getA (patchStA st module_path).sysModules module_path with
    | some d => clearModuleNamespace d
    | none => [("__name__", Value.str module_path)]
  setA (setA (setA (setA d0
      "__name__" (Value.str module_path))
      "__file__" (Value.str (mutagentVirtualFilename module_path)))
      "__loader__" (Value.vloader source (mutagentVirtualFilename module_path)))
      "__package__" (Value.str (pkgName module_path))

/-- Embedding of `ModuleManager.patch_module`.  Executing the compiled
source is abstracted as `execSrc source : Dict → Dict × Bool`: the new
namespace contents together with a success flag ("exec as you go" — on
failure the partially-updated namespace is kept but no history record is
appended, the exception propagating to the caller as the `none` result).
`unregister_module_impls` acts only on the capability runtime's
registries, which are modelled separately, so it does not appear in this
state. -/
def ModuleManager.patch_module (execSrc : String → Dict → Dict × Bool)
    (st : MMState) (module_path source : String) : Option Dict × MMState :=
  let version := (getA st.versions module_path).getD 0 + 1
  let virtual_filename := mutagentVirtualFilename module_path
  let stA := patchStA st module_path
  let ed := execSrc source (patchPreDict st module_path source)
  let stB := { stA with
      patchedModules := addIfAbsent stA.patchedModules module_path,
      linecache := setA stA.linecache virtual_filename source,
      sysModules := setA stA.sysModules module_path ed.1 }
  if ed.2 then
    let stC := attachToParent stB module_path
    let newHist := setA stC.history module_path
      ((getA stC.history module_path).getD []
        ++ [⟨module_path, source, version, virtual_filename⟩])
    (some ed.1, { stC with history := newHist })
  else (none, stB)

/-- Embedding of `ModuleManager.get_source`: the latest history entry's
source, or `none` when the history is absent or empty. -/
def ModuleManager.get_source (st : MMState) (module_path : String) :
    Option String :=
  ((getA st.history module_path).getD []).getLast?.map (fun r => r.source)

/-- Embedding of `ModuleManager.get_history` (value of the returned
copy; the copying itself is modelled in the heap model further below). -/
def ModuleManager.get_history (st : MMState) (module_path : String) :
    List PatchRecord :=
  (getA st.history module_path).getD []

/-- Embedding of `ModuleManager.get_version`. -/
def ModuleManager.get_version (st : MMState) (module_path : String) : Nat :=
  (getA st.versions module_path).getD 0

/-- Embedding of `ModuleManager.cleanup`. -/
def ModuleManager.cleanup (st : MMState) : MMState :=
  let sys1 := st.patchedModules.foldl (fun m p => removeA m p) st.sysModules
  let lc1 := st.patchedModules.foldl
      (fun lc p => removeA lc (mutagentVirtualFilename p)) st.linecache
  let sys2 := st.virtualPackages.foldl (fun m p => removeA m p) sys1
  { sysModules := sys2, linecache := lc1, history := [], versions := [],
    patchedModules := [], virtualPackages := [] }

/-! ### Persistence -/

/-- The distinct error `save_module` raises on a never-patched path
(`ValueError(f"Module ... has never been patched")`). -/
inductive SaveError where
  | neverPatched (module_path : String)

/-- The filesystem: written files and created directories. -/
structure FS where
  files : List (String × String)
  dirs : List String

/-- Join path components with `/` (embedding `Path.joinpath`). -/
def joinSlash : List String → String
  | [] => ""
  | [p] => p
  | p :: q :: rest => p ++ "/" ++ joinSlash (q :: rest)

/-- The file location `save_module` computes:
`Path(directory).joinpath(*parts[:-1], parts[-1] + ".py")`. -/
def savePath (directory module_path : String) : String :=
  let parts := pathParts module_path
  joinSlash (directory :: (parts.dropLast ++ [parts.getLastD "" ++ ".py"]))

/-- The directories `file_path.parent.mkdir(parents=True, exist_ok=True)`
ensures exist: the root directory and each deeper intermediate level. -/
def saveDirs (directory module_path : String) : List String :=
  let segs := (pathParts module_path).dropLast
  (List.range (segs.length + 1)).map (fun i => joinSlash (directory :: segs.take i))

/-- Add each directory to the created set if absent. -/
def addDirs (dirs : List String) : List String → List String
  | [] => dirs
  | q :: rest => addDirs (if memS dirs q then dirs else dirs ++ [q]) rest

/-- The per-value step of `save_module`'s loop: for an object carrying a
`__code__` whose `co_filename` equals the virtual identifier, replace the
filename recursively; all other objects are untouched. -/
def rewriteValue (virtual_filename real_path : String) : Value → Value
  | Value.func c =>
      if c.co_filename = virtual_filename then
        Value.func (replaceCodeFilename c virtual_filename real_path)
      else Value.func c
  | v => v

/-- Embedding of `ModuleManager.save_module`. -/
def ModuleManager.save_module (st : MMState) (fs : FS)
    (module_path directory : String) :
    Except SaveError String × MMState × FS :=
  match ModuleManager.get_source st module_path with
  | none => (Except.error (SaveError.neverPatched module_path), st, fs)
  | some source =>
    let file_path := savePath directory module_path
    let fs1 : FS := { files := setA fs.files file_path source,
                      dirs := addDirs fs.dirs (saveDirs directory module_path) }
    let virtual_filename := mutagentVirtualFilename module_path
    let st1 := match getA st.sysModules module_path with
      | some d =>
          let d1 := setA d "__file__" (Value.str file_path)
          let d2 := d1.map
            (fun (kv : String × Value) =>
              (kv.1, rewriteValue virtual_filename file_path kv.2))
          { st with sysModules := setA st.sysModules module_path d2 }
      | none => st
    let st2 := { st1 with linecache := removeA st1.linecache virtual_filename }
    (Except.ok file_path, st2, fs1)

/-! ### Component lemmas about the manager operations -/

theorem addPackages_versions (st : MMState) (l : List String) :
    (addPackages st l).versions = st.versions := by
  induction l generalizing st with
  | nil => rfl
  | cons q rest ih =>
    cases h : getA st.sysModules q with
    | some d => simp [addPackages, h, ih]
    | none => simp [addPackages, h, ih]

theorem addPackages_history (st : MMState) (l : List String) :
    (addPackages st l).history = st.history := by
  induction l generalizing st with
  | nil => rfl
  | cons q rest ih =>
    cases h : getA st.sysModules q with
    | some d => simp [addPackages, h, ih]
    | none => simp [addPackages, h, ih]

theorem addPackages_patched (st : MMState) (l : List String) :
    (addPackages st l).patchedModules = st.patchedModules := by
  induction l generalizing st with
  | nil => rfl
  | cons q rest ih =>
    cases h : getA st.sysModules q with
    | some d => simp [addPackages, h, ih]
    | none => simp [addPackages, h, ih]

theorem addPackages_linecache (st : MMState) (l : List String) :
    (addPackages st l).linecache = st.linecache := by
  induction l generalizing st with
  | nil => rfl
  | cons q rest ih =>
    cases h : getA st.sysModules q with
    | some d => simp [addPackages, h, ih]
    | none => simp [addPackages, h, ih]

/-- `_ensure_parent_packages` never overwrites an existing entry. -/
theorem addPackages_getA_some (st : MMState) (l : List String) (k : String)
    (d : Dict) (h : getA st.sysModules k = some d) :
    getA (addPackages st l).sysModules k = some d := by
  induction l generalizing st with
  | nil => exact h
  | cons q rest ih =>
    cases hq : getA st.sysModules q with
    | some d' => simpa [addPackages, hq] using ih st h
    | none =>
      have hne : k ≠ q := by
        intro he; subst he; rw [h] at hq; cases hq
      have : getA (setA st.sysModules q (pkgDict q)) k = some d := by
        rw [getA_setA_ne _ _ _ _ hne]; exact h
      simpa [addPackages, hq] using
        ih { st with sysModules := setA st.sysModules q (pkgDict q),
                     virtualPackages := st.virtualPackages ++ [q] } this

/-- `_ensure_parent_packages` touches only the listed prefixes. -/
theorem addPackages_getA_notmem (st : MMState) (l : List String) (k : String)
    (h : k ∉ l) :
    getA (addPackages st l).sysModules k = getA st.sysModules k := by
  induction l generalizing st with
  | nil => rfl
  | cons q rest ih =>
    have hk : k ∉ rest := by intro hr; exact h (List.mem_cons_of_mem _ hr)
    have hne : k ≠ q := by intro he; exact h (he ▸ List.mem_cons_self _ _)
    cases hq : getA st.sysModules q with
    | some d' => simpa [addPackages, hq] using ih _ hk
    | none =>
      have := ih { st with sysModules := setA st.sysModules q (pkgDict q),
                           virtualPackages := st.virtualPackages ++ [q] } hk
      simpa [addPackages, hq, getA_setA_ne _ _ _ _ hne] using this

/-- The parent prefix is among the proper prefixes when the path is
multi-segment. -/
theorem parentPath_mem_properPrefixes (p : String)
    (h : 2 ≤ (pathParts p).length) : parentPath p ∈ properPrefixes p := by
  unfold parentPath properPrefixes
  have hmem : (pathParts p).length - 2 ∈ List.range ((pathParts p).length - 1) := by
    rw [List.mem_range]; omega
  have e : (pathParts p).length - 2 + 1 = (pathParts p).length - 1 := by omega
  have : joinDots ((pathParts p).take ((pathParts p).length - 2 + 1))
      = joinDots (pathParts p).dropLast := by
    rw [List.dropLast_eq_take, e]
  exact this ▸ List.mem_map_of_mem _ hmem

/-- `_attach_to_parent` touches only the parent entry. -/
theorem attachSys_getA_ne (sysm : List (String × Dict)) (p q : String)
    (hq : q ≠ parentPath p) : getA (attachSys sysm p) q = getA sysm q := by
  unfold attachSys
  by_cases h : 2 ≤ (pathParts p).length
  · simp only [h, if_true]
    cases hp : getA sysm (parentPath p) with
    | some pd => simpa using getA_setA_ne _ _ _ _ hq
    | none => rfl
  · simp [h]

/-! #### Field characterization of `patch_module` -/

theorem patch_versions (ex : String → Dict → Dict × Bool) (st : MMState)
    (p s : String) :
    ((ModuleManager.patch_module ex st p s).2).versions
      = setA st.versions p (ModuleManager.get_version st p + 1) := by
  unfold ModuleManager.patch_module
  dsimp only
  split <;>
    simp [attachToParent, patchStA, addPackages_versions, ModuleManager.get_version]

theorem patch_linecache (ex : String → Dict → Dict × Bool) (st : MMState)
    (p s : String) :
    ((ModuleManager.patch_module ex st p s).2).linecache
      = setA st.linecache (mutagentVirtualFilename p) s := by
  unfold ModuleManager.patch_module
  dsimp only
  split <;>
    simp [attachToParent, patchStA, addPackages_linecache]

theorem patch_patched (ex : String → Dict → Dict × Bool) (st : MMState)
    (p s : String) :
    ((ModuleManager.patch_module ex st p s).2).patchedModules
      = addIfAbsent st.patchedModules p := by
  unfold ModuleManager.patch_module
  dsimp only
  split <;>
    simp [attachToParent, patchStA, addPackages_patched]

/-- A patch call either fails (no result, history untouched) or succeeds
(result returned, history extended by one record carrying the freshly
assigned version and the virtual filename). -/
theorem patch_history_cases (ex : String → Dict → Dict × Bool) (st : MMState)
    (p s : String) :
    ((ModuleManager.patch_module ex st p s).1 = none ∧
      ((ModuleManager.patch_module ex st p s).2).history = st.history) ∨
    ((ModuleManager.patch_module ex st p s).1.isSome ∧
      ((ModuleManager.patch_module ex st p s).2).history
        = setA st.history p (ModuleManager.get_history st p
            ++ [⟨p, s, ModuleManager.get_version st p + 1,
                 mutagentVirtualFilename p⟩])) := by
  unfold ModuleManager.patch_module
  dsimp only
  split
  · right
    constructor
    · simp
    · simp [attachToParent, patchStA, addPackages_history,
        ModuleManager.get_history, ModuleManager.get_version]
  · left
    constructor
    · simp
    · simp [patchStA, addPackages_history]

/-! ### Versioning (claim C2) -/

/-- `[1, 2, ..., n]`. -/
def natRange1 (n : Nat) : List Nat := (List.range n).map (· + 1)

theorem natRange1_succ (n : Nat) : natRange1 (n + 1) = natRange1 n ++ [n + 1] := by
  simp [natRange1, List.range_succ]

/-- States reachable from a freshly constructed manager by successful
patch calls (the `.isSome` side condition says compile+exec succeeded). -/
inductive ReachOk : MMState → Prop
  | init (sysm : List (String × Dict)) (lc : List (String × String)) :
      ReachOk (MMState.fresh sysm lc)
  | step (st : MMState) (ex : String → Dict → Dict × Bool) (p s : String) :
      ReachOk st → ((ModuleManager.patch_module ex st p s).1).isSome →
      ReachOk ((ModuleManager.patch_module ex st p s).2)

/-- An exec model for a patch whose compile/exec raises: the namespace is
unchanged and the failure propagates. -/
def failingExec : String → Dict → Dict × Bool := fun _ d => (d, false)

/-- An exec model that assigns one symbol and succeeds. -/
def assignExec (x : String) (v : Value) : String → Dict → Dict × Bool :=
  fun _ d => (setA d x v, true)

def stC2cex : MMState :=
  (ModuleManager.patch_module failingExec (MMState.fresh [] [])
    "pkg.calc" "x = (").2

/-- C2 (counterexample): a patch call whose compile raises still consumes
a version number but appends no history record, so immediately after it
the version of the path is 1 while its history has length 0 — "at every
instant the length of P's history equals P's current version number"
fails on the code. -/
theorem C2_counterexample :
    ModuleManager.get_version stC2cex "pkg.calc" = 1 ∧
    (ModuleManager.get_history stC2cex "pkg.calc").length = 0 := by
  constructor <;> rfl

/-- C2 (amended): for every module path the version is 0 before any
patch; provided every patch call so far succeeded, each successful patch
to P assigns version numbers 1, 2, ... in order, and at every reachable
instant the length of P's history equals P's current version number with
the entries' version fields being 1..N in order.  (A failed patch call
still consumes a version number but appends no record, see the
counterexample.) -/
theorem C2_version_history_invariant (st : MMState) (h : ReachOk st)
    (p : String) :
    ModuleManager.get_version st p = (ModuleManager.get_history st p).length ∧
    (ModuleManager.get_history st p).map PatchRecord.version
      = natRange1 (ModuleManager.get_version st p) := by
  induction h with
  | init sysm lc =>
    simp [MMState.fresh, ModuleManager.get_version, ModuleManager.get_history,
      natRange1]
  | step st' ex q s hr hok ih =>
    have hv := patch_versions ex st' q s
    rcases patch_history_cases ex st' q s with ⟨hnone, _⟩ | ⟨_, hh⟩
    · rw [hnone] at hok; cases hok
    · by_cases hpq : p = q
      · subst hpq
        rw [ModuleManager.get_version, hv, getA_setA_self, Option.getD_some,
          ModuleManager.get_history, hh, getA_setA_self, Option.getD_some]
        constructor
        · simp [ih.1]
        · rw [List.map_append, ih.2, ih.1, List.map_singleton]
          rw [← ih.1, natRange1_succ]
      · rw [ModuleManager.get_version, hv, getA_setA_ne _ _ _ _ hpq,
          ModuleManager.get_history, hh, getA_setA_ne _ _ _ _ hpq]
        exact ih

def stC2wit : MMState :=
  (ModuleManager.patch_module (assignExec "y" (Value.str "2"))
    (MMState.fresh [] []) "pkg.calc" "y = 2").2

/-- Witness: the amended C2 invariant evaluated after one successful
patch of `pkg.calc`. -/
theorem C2_version_history_invariant_witness :
    ModuleManager.get_version stC2wit "pkg.calc"
      = (ModuleManager.get_history stC2wit "pkg.calc").length ∧
    (ModuleManager.get_history stC2wit "pkg.calc").map PatchRecord.version
      = natRange1 (ModuleManager.get_version stC2wit "pkg.calc") :=
  C2_version_history_invariant stC2wit
    (ReachOk.step (MMState.fresh [] []) (assignExec "y" (Value.str "2"))
      "pkg.calc" "y = 2" (ReachOk.init [] []) (by decide)) "pkg.calc"

/-! ### Replace semantics (claim C3) -/

/-- Clearing a namespace drops every non-protected attribute. -/
theorem getA_clear_of_not_preserved (d : Dict) (x : String)
    (hx : memS preserveAttrs x = false) :
    getA (clearModuleNamespace d) x = none := by
  induction d with
  | nil => rfl
  | cons kv rest ih =>
    obtain ⟨k, v⟩ := kv
    by_cases hkx : k = x
    · subst hkx
      simp [clearModuleNamespace, List.filter_cons, hx] at ih ⊢
      exact ih
    · cases hk : memS preserveAttrs k <;>
        simp [clearModuleNamespace, List.filter_cons, hk, getA, hkx] at ih ⊢ <;>
        exact ih

/-- `_attach_to_parent` does not move the module's own entry. -/
theorem attachSys_getA_self (sysm : List (String × Dict)) (p : String) :
    getA (attachSys sysm p) p = getA sysm p := by
  by_cases h : 2 ≤ (pathParts p).length
  · exact attachSys_getA_ne _ _ _ (Ne.symm (parentPath_ne p h))
  · unfold attachSys; simp [h]

/-- After a patch call the `sys.modules` entry of the patched path is
exactly the namespace the source execution produced. -/
theorem patch_getA_self (ex : String → Dict → Dict × Bool) (st : MMState)
    (p s : String) :
    getA ((ModuleManager.patch_module ex st p s).2).sysModules p
      = some ((ex s (patchPreDict st p s)).1) := by
  unfold ModuleManager.patch_module
  dsimp only
  split
  · simp [attachToParent, attachSys_getA_self]
  · simp

/-- C3: patching P first with source defining symbol x and then with
source defining only symbol y (and no protected bookkeeping name) leaves
the final namespace with x absent and y present — the symbol table is
entirely replaced on re-patch apart from the protected bookkeeping
attributes. -/
theorem C3_replace_semantics
    (ex1 ex2 : String → Dict → Dict × Bool) (st0 : MMState)
    (P src1 src2 x y : String) (v : Value)
    (hx1 : ∀ d, getA ((ex1 src1 d).1) x = some v)
    (hx_unprotected : memS preserveAttrs x = false)
    (hxy : x ≠ y)
    (hy2 : ∀ d, ∃ w, getA ((ex2 src2 d).1) y = some w)
    (honly2 : ∀ d k, k ≠ y → getA ((ex2 src2 d).1) k = getA d k) :
    ∃ d1 d2,
      getA ((ModuleManager.patch_module ex1 st0 P src1).2).sysModules P = some d1 ∧
      getA d1 x = some v ∧
      getA ((ModuleManager.patch_module ex2
        ((ModuleManager.patch_module ex1 st0 P src1).2) P src2).2).sysModules P
          = some d2 ∧
      getA d2 x = none ∧ (∃ w, getA d2 y = some w) := by
  have h1 := patch_getA_self ex1 st0 P src1
  have h2 := patch_getA_self ex2 ((ModuleManager.patch_module ex1 st0 P src1).2)
    P src2
  refine ⟨_, _, h1, hx1 _, h2, ?_, hy2 _⟩
  rw [honly2 _ x hxy]
  have hA : getA (patchStA ((ModuleManager.patch_module ex1 st0 P src1).2)
      P).sysModules P = some ((ex1 src1 (patchPreDict st0 P src1)).1) := by
    unfold patchStA
    exact addPackages_getA_some _ _ _ _ h1
  have hx_names : x ≠ "__name__" ∧ x ≠ "__file__" ∧ x ≠ "__loader__" ∧
      x ≠ "__package__" := by
    have hmem := (memS_false_iff _ _).mp hx_unprotected
    simp [preserveAttrs] at hmem
    exact ⟨hmem.1, hmem.2.2.2.2.2.1, hmem.2.1, hmem.2.2.1⟩
  unfold patchPreDict
  rw [hA]
  rw [getA_setA_ne _ _ _ _ hx_names.2.2.2, getA_setA_ne _ _ _ _ hx_names.2.2.1,
    getA_setA_ne _ _ _ _ hx_names.2.1, getA_setA_ne _ _ _ _ hx_names.1]
  exact getA_clear_of_not_preserved _ _ hx_unprotected

def stC3a : MMState :=
  (ModuleManager.patch_module (assignExec "a" (Value.str "1"))
    (MMState.fresh [] []) "m.mod" "a = 1").2

def stC3b : MMState :=
  (ModuleManager.patch_module (assignExec "y" (Value.str "2"))
    stC3a "m.mod" "y = 2").2

/-- Witness: the concrete scenario: define `a`, re-patch defining only
`y`; afterwards `a` is gone and `y` is present. -/
theorem C3_replace_semantics_witness :
    ∃ d1 d2, getA stC3a.sysModules "m.mod" = some d1 ∧
      getA d1 "a" = some (Value.str "1") ∧
      getA stC3b.sysModules "m.mod" = some d2 ∧
      getA d2 "a" = none ∧ (∃ w, getA d2 "y" = some w) :=
  C3_replace_semantics (assignExec "a" (Value.str "1"))
    (assignExec "y" (Value.str "2")) (MMState.fresh [] [])
    "m.mod" "a = 1" "y = 2" "a" "y" (Value.str "1")
    (fun d => getA_setA_self _ _ _) (by decide) (by decide)
    (fun d => ⟨Value.str "2", getA_setA_self _ _ _⟩)
    (fun d k hk => getA_setA_ne _ _ _ _ hk)

/-! ### Persistence claims (C8, C5, C7) -/

theorem get_source_eq (st : MMState) (P : String) :
    ModuleManager.get_source st P
      = (ModuleManager.get_history st P).getLast?.map (fun r => r.source) := rfl

/-- C8: saving a never-patched path fails with the distinct, clearly
labeled `neverPatched` error carrying the path, with the manager state
and the filesystem returned untouched; saving a path with at least one
history entry returns the written path, never that error. -/
theorem C8_save_never_patched (st : MMState) (fs : FS) (P D : String) :
    (ModuleManager.get_history st P = [] →
      ModuleManager.save_module st fs P D
        = (Except.error (SaveError.neverPatched P), st, fs)) ∧
    (ModuleManager.get_history st P ≠ [] →
      ∃ r, ModuleManager.save_module st fs P D
        = (Except.ok (savePath D P), r)) := by
  constructor
  · intro h
    have hsrc : ModuleManager.get_source st P = none := by
      rw [get_source_eq, h]; rfl
    simp [ModuleManager.save_module, hsrc]
  · intro h
    cases hl : (ModuleManager.get_history st P).getLast? with
    | none => exact absurd (List.getLast?_eq_none_iff.mp hl) h
    | some r =>
      have hsrc : ModuleManager.get_source st P = some r.source := by
        rw [get_source_eq, hl]; rfl
      refine ⟨(ModuleManager.save_module st fs P D).2, ?_⟩
      have h1 : (ModuleManager.save_module st fs P D).1
          = Except.ok (savePath D P) := by
        simp only [ModuleManager.save_module, hsrc]
      exact Prod.ext h1 rfl

/-- Witness for C8: both directions at concrete states. -/
theorem C8_save_never_patched_witness :
    (ModuleManager.save_module (MMState.fresh [] []) ⟨[], []⟩ "p.q" "/tmp"
      = (Except.error (SaveError.neverPatched "p.q"), MMState.fresh [] [], ⟨[], []⟩)) ∧
    (∃ r, ModuleManager.save_module stC2wit ⟨[], []⟩ "pkg.calc" "/tmp"
      = (Except.ok (savePath "/tmp" "pkg.calc"), r)) :=
  ⟨(C8_save_never_patched (MMState.fresh [] []) ⟨[], []⟩ "p.q" "/tmp").1 rfl,
   (C8_save_never_patched stC2wit ⟨[], []⟩ "pkg.calc" "/tmp").2 (by decide)⟩

theorem getA_map_values (d : Dict) (f : Value → Value) (k : String) :
    getA (d.map (fun (kv : String × Value) => (kv.1, f kv.2))) k
      = (getA d k).map f := by
  induction d with
  | nil => rfl
  | cons kv rest ih =>
    obtain ⟨k', v⟩ := kv
    by_cases h : k' = k <;> simp [getA, h, ih]

theorem mem_addDirs (l : List String) (dirs : List String) (q : String)
    (h : q ∈ dirs ∨ q ∈ l) : q ∈ addDirs dirs l := by
  induction l generalizing dirs with
  | nil =>
    rcases h with hd | hl
    · exact hd
    · cases hl
  | cons a rest ih =>
    unfold addDirs
    apply ih
    rcases h with hd | hl
    · left
      split
      · exact hd
      · exact List.mem_append_left _ hd
    · rcases List.mem_cons.mp hl with rfl | hr
      · left
        split
        · next hmem => exact (memS_true_iff _ _).mp hmem
        · exact List.mem_append_right _ (List.mem_singleton.mpr rfl)
      · right; exact hr

/-- C5: save writes the most recent history entry's source text verbatim
to `D/a/b/c.py`, ensures `D/a/b/` exists, sets the namespace's recorded
file location to the real path, and removes the virtual identifier's
linecache entry. -/
theorem C5_save_layout (st : MMState) (fs : FS) (P D : String)
    (r : PatchRecord)
    (hlast : (ModuleManager.get_history st P).getLast? = some r)
    (d : Dict) (hmod : getA st.sysModules P = some d) :
    ∃ st' fs',
      ModuleManager.save_module st fs P D
        = (Except.ok (savePath D P), st', fs') ∧
      getA fs'.files (savePath D P) = some r.source ∧
      memS fs'.dirs (joinSlash (D :: (pathParts P).dropLast)) = true ∧
      (∃ d', getA st'.sysModules P = some d' ∧
        getA d' "__file__" = some (Value.str (savePath D P))) ∧
      getA st'.linecache (mutagentVirtualFilename P) = none := by
  have hsrc : ModuleManager.get_source st P = some r.source := by
    rw [get_source_eq, hlast]; rfl
  simp only [ModuleManager.save_module, hsrc, hmod]
  refine ⟨_, _, rfl, getA_setA_self _ _ _, ?_, ⟨_, getA_setA_self _ _ _, ?_⟩,
    getA_removeA_self _ _⟩
  · apply (memS_true_iff _ _).mpr
    apply mem_addDirs _ _ _ (Or.inr ?_)
    unfold saveDirs
    have hmem : ((pathParts P).dropLast).length
        ∈ List.range (((pathParts P).dropLast).length + 1) := by
      rw [List.mem_range]; omega
    have e : joinSlash (D :: ((pathParts P).dropLast).take
        ((pathParts P).dropLast).length) = joinSlash (D :: (pathParts P).dropLast) := by
      rw [List.take_length]
    exact e ▸ List.mem_map_of_mem _ hmem
  · rw [getA_map_values, getA_setA_self]
    rfl

/-- Witness for C5: saving `pkg.calc` after one patch writes
`/tmp/out/pkg/calc.py` with the patched source. -/
theorem C5_save_layout_witness :
    ∃ st' fs',
      ModuleManager.save_module stC2wit ⟨[], []⟩ "pkg.calc" "/tmp/out"
        = (Except.ok (savePath "/tmp/out" "pkg.calc"), st', fs') ∧
      getA fs'.files (savePath "/tmp/out" "pkg.calc")
        = some (PatchRecord.mk "pkg.calc" "y = 2" 1 "mutagent://pkg.calc").source ∧
      memS fs'.dirs (joinSlash ("/tmp/out" :: (pathParts "pkg.calc").dropLast)) = true ∧
      (∃ d', getA st'.sysModules "pkg.calc" = some d' ∧
        getA d' "__file__" = some (Value.str (savePath "/tmp/out" "pkg.calc"))) ∧
      getA st'.linecache (mutagentVirtualFilename "pkg.calc") = none :=
  C5_save_layout stC2wit ⟨[], []⟩ "pkg.calc" "/tmp/out" _ rfl _ rfl

/-! ### The virtual location identifier (claim C7) -/

def stC7 : MMState :=
  (ModuleManager.patch_module (assignExec "x" (Value.str "1"))
    (MMState.fresh [] []) "pkg" "x = 1").2

/-- C7 (counterexample): the identifier the code produces for path `pkg`
is the string `mutagent://pkg`, not `virtual://pkg`: after patching,
the namespace's `__file__` and the source-cache key both use the
`mutagent://` scheme, and no `virtual://pkg` cache entry exists. -/
theorem C7_counterexample :
    (∃ d, getA stC7.sysModules "pkg" = some d ∧
      getA d "__file__" = some (Value.str "mutagent://pkg")) ∧
    ("mutagent://pkg" : String) ≠ "virtual://pkg" ∧
    getA stC7.linecache "virtual://pkg" = none ∧
    getA stC7.linecache "mutagent://pkg" = some "x = 1" :=
  ⟨⟨_, rfl, rfl⟩, by decide, rfl, rfl⟩

/-- C7 (amended): the virtual location identifier is the string
`mutagent://<dotted-path>` — a deterministic function of the path alone,
hence stable across repeated patches — and it is used consistently as
the source-cache key, the namespace's `__file__`, the history record's
`virtual_filename`, and again by `save` as the cache key to evict.
(The hypothesis on `ex` says the patched source does not itself assign
`__file__`.) -/
theorem C7_virtual_identifier (ex : String → Dict → Dict × Bool)
    (st : MMState) (P S : String)
    (hpres : ∀ d, getA ((ex S d).1) "__file__" = getA d "__file__") :
    getA ((ModuleManager.patch_module ex st P S).2).linecache
        (mutagentVirtualFilename P) = some S ∧
    (∃ d, getA ((ModuleManager.patch_module ex st P S).2).sysModules P = some d ∧
      getA d "__file__" = some (Value.str (mutagentVirtualFilename P))) ∧
    (∀ r, (ModuleManager.get_history
        (ModuleManager.patch_module ex st P S).2 P).getLast? = some r →
      (ModuleManager.patch_module ex st P S).1.isSome →
      r.virtual_filename = mutagentVirtualFilename P) ∧
    (∀ st' fs D, (ModuleManager.get_source st' P).isSome →
      getA ((ModuleManager.save_module st' fs P D).2.1).linecache
        (mutagentVirtualFilename P) = none) := by
  refine ⟨?_, ?_, ?_, ?_⟩
  · rw [patch_linecache]
    exact getA_setA_self _ _ _
  · refine ⟨_, patch_getA_self ex st P S, ?_⟩
    rw [hpres]
    unfold patchPreDict
    rw [getA_setA_ne _ _ _ _ (by decide), getA_setA_ne _ _ _ _ (by decide),
      getA_setA_self]
  · intro r hlast hok
    rcases patch_history_cases ex st P S with ⟨hnone, _⟩ | ⟨_, hh⟩
    · rw [hnone] at hok; cases hok
    · rw [ModuleManager.get_history, hh, getA_setA_self, Option.getD_some,
        List.getLast?_concat] at hlast
      cases hlast
      rfl
  · intro st' fs D hsome
    cases hsrc : ModuleManager.get_source st' P with
    | none => rw [hsrc] at hsome; cases hsome
    | some src =>
      simp only [ModuleManager.save_module, hsrc]
      cases hmod : getA st'.sysModules P with
      | none => simp [hmod]
      | some d => simp [hmod]

/-- Witness for the amended C7 at a concrete patch and save. -/
theorem C7_virtual_identifier_witness :
    getA stC2wit.linecache (mutagentVirtualFilename "pkg.calc") = some "y = 2" ∧
    (∃ d, getA stC2wit.sysModules "pkg.calc" = some d ∧
      getA d "__file__" = some (Value.str (mutagentVirtualFilename "pkg.calc"))) ∧
    (∀ r, (ModuleManager.get_history stC2wit "pkg.calc").getLast? = some r →
      (ModuleManager.patch_module (assignExec "y" (Value.str "2"))
        (MMState.fresh [] []) "pkg.calc" "y = 2").1.isSome →
      r.virtual_filename = mutagentVirtualFilename "pkg.calc") ∧
    (∀ st' fs D, (ModuleManager.get_source st' "pkg.calc").isSome →
      getA ((ModuleManager.save_module st' fs "pkg.calc" D).2.1).linecache
        (mutagentVirtualFilename "pkg.calc") = none) :=
  C7_virtual_identifier (assignExec "y" (Value.str "2"))
    (MMState.fresh [] []) "pkg.calc" "y = 2"
    (fun d => getA_setA_ne _ _ _ _ (by decide))

/-! ### Recursive filename rewriting (claim C6) -/

mutual

theorem allFiles_replaceCodeFilename (old nf : String) :
    (c : Code) → allFiles nf (replaceCodeFilename c old nf) = true
  | Code.mk g cs => by
    simp only [replaceCodeFilename, allFiles, Bool.and_eq_true, beq_self_eq_true]
    exact ⟨trivial, allFilesList_replaceCodeList old nf cs⟩

theorem allFilesList_replaceCodeList (old nf : String) :
    (cs : List Code) → allFilesList nf (replaceCodeList cs old nf) = true
  | [] => rfl
  | c :: cs => by
    simp only [replaceCodeList, allFilesList, Bool.and_eq_true]
    exact ⟨allFiles_replaceCodeFilename old nf c,
           allFilesList_replaceCodeList old nf cs⟩

end

/-- C6: after a save, for every object in the module's namespace carrying
executable code whose tree is filename-homogeneous (which is what
`compile()` produces: every code object compiled from one source carries
the same filename, nested ones included): if its recorded location
equals the virtual identifier then every unit in its tree — nested ones
reachable transitively included, not only the top-level one — is
rewritten to the real file path; and if its recorded location differs
from the virtual identifier the object is left untouched, so no unit
whose metadata differs from the virtual identifier is ever rewritten. -/
theorem C6_code_filename_rewrite (st : MMState) (fs : FS) (P D : String)
    (r : PatchRecord)
    (hlast : (ModuleManager.get_history st P).getLast? = some r)
    (d : Dict) (hmod : getA st.sysModules P = some d)
    (k : String) (hk : k ≠ "__file__") (c : Code)
    (hfun : getA d k = some (Value.func c))
    (hhom : allFiles c.co_filename c = true) :
    ∃ d' c',
      getA ((ModuleManager.save_module st fs P D).2.1).sysModules P = some d' ∧
      getA d' k = some (Value.func c') ∧
      (c.co_filename = mutagentVirtualFilename P →
        allFiles (savePath D P) c' = true) ∧
      (c.co_filename ≠ mutagentVirtualFilename P →
        c' = c ∧ allFiles c.co_filename c' = true) := by
  have hsrc : ModuleManager.get_source st P = some r.source := by
    rw [get_source_eq, hlast]; rfl
  simp only [ModuleManager.save_module, hsrc, hmod]
  by_cases hvf : c.co_filename = mutagentVirtualFilename P
  · refine ⟨_, replaceCodeFilename c (mutagentVirtualFilename P) (savePath D P),
      getA_setA_self _ _ _, ?_, ?_, ?_⟩
    · rw [getA_map_values, getA_setA_ne _ _ _ _ hk, hfun]
      simp [rewriteValue, hvf]
    · intro _
      exact allFiles_replaceCodeFilename _ _ c
    · intro hne
      exact absurd hvf hne
  · refine ⟨_, c, getA_setA_self _ _ _, ?_, ?_, ?_⟩
    · rw [getA_map_values, getA_setA_ne _ _ _ _ hk, hfun]
      simp [rewriteValue, hvf]
    · intro he
      exact absurd he hvf
    · intro _
      exact ⟨rfl, hhom⟩

def codeC6 : Code := Code.mk "mutagent://w.m" [Code.mk "mutagent://w.m" []]

def dC6 : Dict :=
  [("__name__", Value.str "w.m"),
   ("__file__", Value.str "mutagent://w.m"),
   ("f", Value.func codeC6)]

def stC6 : MMState :=
  { sysModules := [("w.m", dC6)],
    history := [("w.m", [⟨"w.m", "def f(): ...", 1, "mutagent://w.m"⟩])],
    versions := [("w.m", 1)], virtualPackages := ["w"],
    patchedModules := ["w.m"], linecache := [("mutagent://w.m", "def f(): ...")] }

/-- Witness: saving a module holding a function with a nested code
object, both stamped with the virtual identifier. -/
theorem C6_code_filename_rewrite_witness :
    ∃ d' c',
      getA ((ModuleManager.save_module stC6 ⟨[], []⟩ "w.m" "/out").2.1).sysModules
        "w.m" = some d' ∧
      getA d' "f" = some (Value.func c') ∧
      (codeC6.co_filename = mutagentVirtualFilename "w.m" →
        allFiles (savePath "/out" "w.m") c' = true) ∧
      (codeC6.co_filename ≠ mutagentVirtualFilename "w.m" →
        c' = codeC6 ∧ allFiles codeC6.co_filename c' = true) :=
  C6_code_filename_rewrite stC6 ⟨[], []⟩ "w.m" "/out"
    ⟨"w.m", "def f(): ...", 1, "mutagent://w.m"⟩ rfl dC6 rfl
    "f" (by decide) codeC6 rfl rfl

/-! ### Teardown isolation (claim C9) -/

theorem patch_virtualPackages (ex : String → Dict → Dict × Bool)
    (st : MMState) (p s : String) :
    ((ModuleManager.patch_module ex st p s).2).virtualPackages
      = (patchStA st p).virtualPackages := by
  unfold ModuleManager.patch_module
  dsimp only
  split <;> simp [attachToParent]

theorem addPackages_vp_one (st : MMState) (q1 : String)
    (h1 : getA st.sysModules q1 = none) :
    (addPackages st [q1]).virtualPackages = st.virtualPackages ++ [q1] := by
  simp [addPackages, h1]

theorem addPackages_vp_two (st : MMState) (q1 q2 : String)
    (h1 : getA st.sysModules q1 = none) (h2 : getA st.sysModules q2 = none)
    (hne : q2 ≠ q1) :
    (addPackages st [q1, q2]).virtualPackages
      = st.virtualPackages ++ [q1, q2] := by
  have e : getA (setA st.sysModules q1 (pkgDict q1)) q2 = none := by
    rw [getA_setA_ne _ _ _ _ hne]; exact h2
  simp [addPackages, h1, e]

/-- A patch call leaves every `sys.modules` entry other than the patched
path, its auto-created parent prefixes and its direct parent unchanged. -/
theorem patch_getA_untouched (ex : String → Dict → Dict × Bool)
    (st : MMState) (p s q : String)
    (hq1 : q ≠ p) (hq2 : q ∉ properPrefixes p) (hq3 : q ≠ parentPath p) :
    getA ((ModuleManager.patch_module ex st p s).2).sysModules q
      = getA st.sysModules q := by
  unfold ModuleManager.patch_module
  dsimp only
  split
  · simp only [attachToParent]
    rw [attachSys_getA_ne _ _ _ hq3, getA_setA_ne _ _ _ _ hq1]
    unfold patchStA
    exact addPackages_getA_notmem _ _ _ hq2
  · rw [getA_setA_ne _ _ _ _ hq1]
    unfold patchStA
    exact addPackages_getA_notmem _ _ _ hq2

/-- C9: after creating `a.b.c` and `x.y` via patch on a fresh manager
(none of the five involved names being previously registered) and then
tearing down, none of `a`, `a.b`, `a.b.c`, `x`, `x.y` remain in the
registry, version lookups return 0 and history lookups return empty for
every path, and every registry entry that existed before the manager
began operating is left exactly in place. -/
theorem C9_teardown_isolation
    (S : List (String × Dict)) (L : List (String × String))
    (ex1 ex2 : String → Dict → Dict × Bool) (s1 s2 : String)
    (ha : getA S "a" = none) (hab : getA S "a.b" = none)
    (habc : getA S "a.b.c" = none) (hx : getA S "x" = none)
    (hxy : getA S "x.y" = none) :
    (∀ q, q ∈ ["a", "a.b", "a.b.c", "x", "x.y"] →
      getA (ModuleManager.cleanup
        ((ModuleManager.patch_module ex2
          ((ModuleManager.patch_module ex1 (MMState.fresh S L) "a.b.c" s1).2)
          "x.y" s2).2)).sysModules q = none) ∧
    (∀ q, ModuleManager.get_version (ModuleManager.cleanup
        ((ModuleManager.patch_module ex2
          ((ModuleManager.patch_module ex1 (MMState.fresh S L) "a.b.c" s1).2)
          "x.y" s2).2)) q = 0 ∧
      ModuleManager.get_history (ModuleManager.cleanup
        ((ModuleManager.patch_module ex2
          ((ModuleManager.patch_module ex1 (MMState.fresh S L) "a.b.c" s1).2)
          "x.y" s2).2)) q = []) ∧
    (∀ q, q ∉ ["a", "a.b", "a.b.c", "x", "x.y"] →
      getA (ModuleManager.cleanup
        ((ModuleManager.patch_module ex2
          ((ModuleManager.patch_module ex1 (MMState.fresh S L) "a.b.c" s1).2)
          "x.y" s2).2)).sysModules q = getA S q) := by
  have hpm1 : ((ModuleManager.patch_module ex1 (MMState.fresh S L)
      "a.b.c" s1).2).patchedModules = ["a.b.c"] := by
    rw [patch_patched]; rfl
  have hvp1 : ((ModuleManager.patch_module ex1 (MMState.fresh S L)
      "a.b.c" s1).2).virtualPackages = ["a", "a.b"] := by
    rw [patch_virtualPackages]
    unfold patchStA
    rw [show properPrefixes "a.b.c" = ["a", "a.b"] from rfl]
    rw [addPackages_vp_two _ _ _ ha hab (by decide)]
    rfl
  have hux : getA ((ModuleManager.patch_module ex1 (MMState.fresh S L)
      "a.b.c" s1).2).sysModules "x" = none := by
    rw [patch_getA_untouched _ _ _ _ _ (by decide)
      (by rw [show properPrefixes "a.b.c" = ["a", "a.b"] from rfl]; decide)
      (by rw [show parentPath "a.b.c" = "a.b" from rfl]; decide)]
    exact hx
  have hpm2 : ((ModuleManager.patch_module ex2
      ((ModuleManager.patch_module ex1 (MMState.fresh S L) "a.b.c" s1).2)
      "x.y" s2).2).patchedModules = ["a.b.c", "x.y"] := by
    rw [patch_patched, hpm1]; rfl
  have hvp2 : ((ModuleManager.patch_module ex2
      ((ModuleManager.patch_module ex1 (MMState.fresh S L) "a.b.c" s1).2)
      "x.y" s2).2).virtualPackages = ["a", "a.b", "x"] := by
    rw [patch_virtualPackages]
    unfold patchStA
    dsimp only
    rw [show properPrefixes "x.y" = ["x"] from rfl]
    rw [addPackages_vp_one]
    · rw [hvp1]; rfl
    · exact hux
  have hsys3 : (ModuleManager.cleanup
      ((ModuleManager.patch_module ex2
        ((ModuleManager.patch_module ex1 (MMState.fresh S L) "a.b.c" s1).2)
        "x.y" s2).2)).sysModules
      = removeA (removeA (removeA (removeA (removeA
          ((ModuleManager.patch_module ex2
            ((ModuleManager.patch_module ex1 (MMState.fresh S L) "a.b.c" s1).2)
            "x.y" s2).2).sysModules
          "a.b.c") "x.y") "a") "a.b") "x" := by
    unfold ModuleManager.cleanup
    rw [hpm2, hvp2]
    rfl
  refine ⟨?_, ?_, ?_⟩
  · intro q hq
    rw [hsys3]
    simp only [List.mem_cons, List.not_mem_nil, or_false] at hq
    rcases hq with rfl | rfl | rfl | rfl | rfl
    · rw [getA_removeA_ne _ _ _ (by decide), getA_removeA_ne _ _ _ (by decide),
        getA_removeA_self]
    · rw [getA_removeA_ne _ _ _ (by decide), getA_removeA_self]
    · rw [getA_removeA_ne _ _ _ (by decide), getA_removeA_ne _ _ _ (by decide),
        getA_removeA_ne _ _ _ (by decide), getA_removeA_ne _ _ _ (by decide),
        getA_removeA_self]
    · rw [getA_removeA_self]
    · rw [getA_removeA_ne _ _ _ (by decide), getA_removeA_ne _ _ _ (by decide),
        getA_removeA_ne _ _ _ (by decide), getA_removeA_self]
  · intro q
    constructor <;> rfl
  · intro q hq
    have hne : q ≠ "a" ∧ q ≠ "a.b" ∧ q ≠ "a.b.c" ∧ q ≠ "x" ∧ q ≠ "x.y" := by
      simp at hq
      exact hq
    rw [hsys3, getA_removeA_ne _ _ _ hne.2.2.2.1,
      getA_removeA_ne _ _ _ hne.2.1, getA_removeA_ne _ _ _ hne.1,
      getA_removeA_ne _ _ _ hne.2.2.2.2, getA_removeA_ne _ _ _ hne.2.2.1]
    rw [patch_getA_untouched _ _ _ _ _ hne.2.2.2.2
      (by rw [show properPrefixes "x.y" = ["x"] from rfl]
          simp [hne.2.2.2.1])
      (by rw [show parentPath "x.y" = "x" from rfl]; exact hne.2.2.2.1)]
    rw [patch_getA_untouched _ _ _ _ _ hne.2.2.1
      (by rw [show properPrefixes "a.b.c" = ["a", "a.b"] from rfl]
          simp [hne.1, hne.2.1])
      (by rw [show parentPath "a.b.c" = "a.b" from rfl]; exact hne.2.1)]
    rfl

/-- Witness for C9: a concrete empty initial registry. -/
theorem C9_teardown_isolation_witness :
    (∀ q, q ∈ ["a", "a.b", "a.b.c", "x", "x.y"] →
      getA (ModuleManager.cleanup
        ((ModuleManager.patch_module (assignExec "v" (Value.str "2"))
          ((ModuleManager.patch_module (assignExec "u" (Value.str "1"))
            (MMState.fresh [] []) "a.b.c" "u = 1").2)
          "x.y" "v = 2").2)).sysModules q = none) ∧
    (∀ q, ModuleManager.get_version (ModuleManager.cleanup
        ((ModuleManager.patch_module (assignExec "v" (Value.str "2"))
          ((ModuleManager.patch_module (assignExec "u" (Value.str "1"))
            (MMState.fresh [] []) "a.b.c" "u = 1").2)
          "x.y" "v = 2").2)) q = 0 ∧
      ModuleManager.get_history (ModuleManager.cleanup
        ((ModuleManager.patch_module (assignExec "v" (Value.str "2"))
          ((ModuleManager.patch_module (assignExec "u" (Value.str "1"))
            (MMState.fresh [] []) "a.b.c" "u = 1").2)
          "x.y" "v = 2").2)) q = []) ∧
    (∀ q, q ∉ ["a", "a.b", "a.b.c", "x", "x.y"] →
      getA (ModuleManager.cleanup
        ((ModuleManager.patch_module (assignExec "v" (Value.str "2"))
          ((ModuleManager.patch_module (assignExec "u" (Value.str "1"))
            (MMState.fresh [] []) "a.b.c" "u = 1").2)
          "x.y" "v = 2").2)).sysModules q = getA [] q) :=
  C9_teardown_isolation [] [] (assignExec "u" (Value.str "1"))
    (assignExec "v" (Value.str "2")) "u = 1" "v = 2" rfl rfl rfl rfl rfl

/-! ### Class identity and in-place merge (claims C1, C4)

`MutagentMeta` (src/mutagent/base.py) sits on top of the capability
runtime `forwardpy`, an external dependency that is not part of this
repository.  Class objects have reference identity, embedded here as
heap identifiers (`Nat`) with the class bodies stored in an explicit
heap, so that "the same object mutated in place" and "a fresh object"
are distinguishable.  The `forwardpy` surface (class construction, stub
dispatch, `@impl` attachment) is modelled from the spec; the merge logic
is embedded from the source. -/

/-- A member of a class `__dict__`: a declared stub (carrying its
`__forwardpy_class__` back-reference), an attached implementation
function, `classmethod`/`staticmethod` wrappers, a computed property
(carrying `owner_cls`), or a plain value. -/
inductive CMember where
  | stub (owner : Nat)
  | impl (f : Nat) (owner : Nat)
  | clsMethod (inner : CMember)
  | statMethod (inner : CMember)
  | prop (f : Nat) (owner : Nat)
  | plain (v : Nat)
deriving DecidableEq

/-- The data of one class object: its `__dict__` and the declared
member-name metadata the capability runtime stores on it. -/
structure ClassData where
  dict : List (String × CMember)
  declaredMethods : List String
  declaredCM : List String
  declaredSM : List String
  annots : Option (List String)
deriving DecidableEq

/-- The process-wide state the class-identity mechanism operates on:
`MutagentMeta._class_registry`, the heap of live class objects, the
allocation counter, and the capability runtime's three per-class
registries. -/
structure MetaState where
  classRegistry : List ((String × String) × Nat)
  heap : List (Nat × ClassData)
  nextId : Nat
  methodRegistry : List (Nat × List (String × Nat))
  attributeRegistry : List (Nat × List String)
  propertyRegistry : List (Nat × List (String × (Nat × Nat)))

/-- A class declaration as the metaclass receives it: the defining
module, the qualified name, the declared members and the annotations. -/
inductive DeclMember where
  | stubDecl
  | cmStubDecl
  | smStubDecl
  | propDecl (f : Nat)
  | plainDecl (v : Nat)
deriving DecidableEq

structure ClassDecl where
  module : String
  qualname : String
  members : List (String × DeclMember)
  annots : Option (List String)

/-- Modelled from the spec: the capability runtime's class-construction
step (`forwardpy.ObjectMeta.__new__`, external to this repository; spec
sections 1 and 6): it allocates a fresh class object, turns every
declared stub into a stub member whose call raises the defined
"unimplemented" error until an implementation is attached, wraps
classmethod/staticmethod stubs, records the declared member-name
metadata on the class, and initializes the per-class registries of
attached implementations, declared attributes and computed properties.
The class body constructed for a declaration, owned by class `cid`. -/
def objClassData (cid : Nat) (decl : ClassDecl) : ClassData :=
  let toMember : DeclMember → CMember := fun m =>
    match m with
    | DeclMember.stubDecl => CMember.stub cid
    | DeclMember.cmStubDecl => CMember.clsMethod (CMember.stub cid)
    | DeclMember.smStubDecl => CMember.statMethod (CMember.stub cid)
    | DeclMember.propDecl f => CMember.prop f cid
    | DeclMember.plainDecl v => CMember.plain v
  let isStub : DeclMember → Bool := fun m =>
    match m with | DeclMember.stubDecl => true | _ => false
  let isCM : DeclMember → Bool := fun m =>
    match m with | DeclMember.cmStubDecl => true | _ => false
  let isSM : DeclMember → Bool := fun m =>
    match m with | DeclMember.smStubDecl => true | _ => false
  { dict := decl.members.map (fun kv => (kv.1, toMember kv.2)),
    declaredMethods := (decl.members.filter (fun kv => isStub kv.2)).map Prod.fst,
    declaredCM := (decl.members.filter (fun kv => isCM kv.2)).map Prod.fst,
    declaredSM := (decl.members.filter (fun kv => isSM kv.2)).map Prod.fst,
    annots := decl.annots }

/-- Modelled from the spec: the computed-property registry entries a
declaration contributes to the capability runtime. -/
def objProps (cid : Nat) (decl : ClassDecl) : List (String × (Nat × Nat)) :=
  decl.members.filterMap
    (fun kv => match kv.2 with
      | DeclMember.propDecl f => some (kv.1, (f, cid))
      | _ => none)

/-- Modelled from the spec: the capability runtime's class construction
(see `objClassData`): allocate a fresh class object carrying the
constructed body and initialize its per-class registries. -/
def objectMetaNew (st : MetaState) (decl : ClassDecl) : Nat × MetaState :=
  let cid := st.nextId
  (cid, { st with
    heap := setA st.heap cid (objClassData cid decl),
    nextId := cid + 1,
    methodRegistry := setA st.methodRegistry cid [],
    attributeRegistry := setA st.attributeRegistry cid (decl.annots.getD []),
    propertyRegistry := setA st.propertyRegistry cid (objProps cid decl) })

/-- The `_SKIP` set of `_update_class_inplace`. -/
def skipAttrs : List String :=
  ["__dict__", "__weakref__", "__class__", "__mro__",
   "__subclasses__", "__bases__", "__name__", "__qualname__", "__module__"]

/-- Repoint a transplanted member's owning-class back-reference
(`__forwardpy_class__` on stubs and implementations, also through the
classmethod/staticmethod wrappers via `__func__`, and `owner_cls` on
properties) to the canonical class (src/mutagent/base.py lines 48-58). -/
def repointMember (e : Nat) : CMember → CMember
  | CMember.stub _ => CMember.stub e
  | CMember.impl f _ => CMember.impl f e
  | CMember.clsMethod inner => CMember.clsMethod (repointMember e inner)
  | CMember.statMethod inner => CMember.statMethod (repointMember e inner)
  | CMember.prop f _ => CMember.prop f e
  | CMember.plain v => CMember.plain v

/-- The class data `_update_class_inplace` leaves on the canonical
class: members absent from the new definition deleted (`_SKIP`
excepted), every member of the new definition copied on top with its
owning-class back-reference repointed to the canonical class, and the
declared-member metadata and annotations taken over wholesale. -/
def mergedData (e : Nat) (de dn : ClassData) : ClassData :=
  { dict := dn.dict.foldl
      (fun acc kv => if memS skipAttrs kv.1 then acc
        else setA acc kv.1 (repointMember e kv.2))
      (de.dict.filter
        (fun kv => memS (dn.dict.map Prod.fst) kv.1 || memS skipAttrs kv.1)),
    declaredMethods := dn.declaredMethods,
    declaredCM := dn.declaredCM,
    declaredSM := dn.declaredSM,
    annots := dn.annots }

/-- Embedding of `_update_class_inplace` (src/mutagent/base.py lines
17-62): mutate the existing class object in place to `mergedData`. -/
def updateClassInplace (st : MetaState) (e n : Nat) : MetaState :=
  match getA st.heap e, getA st.heap n with
  | some de, some dn => { st with heap := setA st.heap e (mergedData e de dn) }
  | _, _ => st

/-- The class-dict member installed when re-applying a registered
implementation: wrapped as `classmethod`/`staticmethod` when the
canonical class's declared metadata says so (src/mutagent/base.py lines
85-91). -/
def mkApplied (declCM declSM : List String) (e : Nat) (name : String)
    (f : Nat) : CMember :=
  if memS declCM name then CMember.clsMethod (CMember.impl f e)
  else if memS declSM name then CMember.statMethod (CMember.impl f e)
  else CMember.impl f e

/-- Apply one registered implementation onto the class dict. -/
def applyImplMember (declCM declSM : List String) (e : Nat)
    (acc : List (String × CMember)) (kv : String × Nat) :
    List (String × CMember) :=
  setA acc kv.1 (mkApplied declCM declSM e kv.1 kv.2)

/-- Embedding of `_migrate_forwardpy_registries` (src/mutagent/base.py
lines 65-102): merge the discarded fresh class's attached-implementation
registry into the canonical one's (existing implementations surviving),
re-apply every registered implementation onto the class — overwriting
any stub the member copy transplanted — and move the attribute and
property registries over, repointing property owners. -/
def migrateForwardpyRegistries (st : MetaState) (e n : Nat) : MetaState :=
  let st1 := match getA st.methodRegistry n with
    | some newMethods =>
      let mr1 := removeA st.methodRegistry n
      let base := (getA mr1 e).getD []
      let merged := newMethods.foldl
        (fun acc (kv : String × Nat) => setA acc kv.1 kv.2) base
      { st with methodRegistry := setA mr1 e merged }
    | none => st
  let st2 := match getA st1.heap e with
    | some de =>
      let impls := (getA st1.methodRegistry e).getD []
      let dict2 := impls.foldl (applyImplMember de.declaredCM de.declaredSM e) de.dict
      { st1 with heap := setA st1.heap e { de with dict := dict2 } }
    | none => st1
  let st3 := match getA st2.attributeRegistry n with
    | some attrs =>
      { st2 with attributeRegistry := setA (removeA st2.attributeRegistry n) e attrs }
    | none => st2
  match getA st3.propertyRegistry n with
  | some props =>
      let props2 := props.map
        (fun (kv : String × (Nat × Nat)) => (kv.1, (kv.2.1, e)))
      { st3 with propertyRegistry := setA (removeA st3.propertyRegistry n) e props2 }
  | none => st3

/-- Embedding of `MutagentMeta.__new__` (src/mutagent/base.py lines
116-140): always construct via the capability runtime first; when a
class is already registered under the `(module, qualname)` key and is
not the freshly constructed object, fold the new definition into the
existing canonical object in place and return it; otherwise register the
fresh object as canonical. -/
def mutagentNew (st : MetaState) (decl : ClassDecl) : Nat × MetaState :=
  let key := (decl.module, decl.qualname)
  let existing := getA st.classRegistry key
  let r := objectMetaNew st decl
  match existing with
  | some e =>
    if e ≠ r.1 then
      let st2 := updateClassInplace r.2 e r.1
      let st3 := migrateForwardpyRegistries st2 e r.1
      (e, st3)
    else
      (r.1, { r.2 with classRegistry := setA r.2.classRegistry key r.1 })
  | none => (r.1, { r.2 with classRegistry := setA r.2.classRegistry key r.1 })

/-- Modelled from the spec: the capability runtime's implementation
attachment (`forwardpy`'s `impl` decorator, external to this repository;
spec sections 1 and 6): register a concrete implementation for a
declared method in the per-class attached-implementation registry and
install it onto the class, wrapped according to the declared
classmethod/staticmethod metadata. -/
def attachImpl (st : MetaState) (cid : Nat) (name : String) (f : Nat) :
    MetaState :=
  match getA st.heap cid with
  | some dc =>
    let base := (getA st.methodRegistry cid).getD []
    let st1 := { st with methodRegistry := setA st.methodRegistry cid (setA base name f) }
    let dict2 := applyImplMember dc.declaredCM dc.declaredSM cid dc.dict (name, f)
    { st1 with heap := setA st1.heap cid { dc with dict := dict2 } }
  | none => st

/-- The observable outcome of invoking a class member. -/
inductive CallResult where
  | unimplemented
  | runsImpl (f : Nat)
  | attrErr
  | plainValue (v : Nat)
deriving DecidableEq

/-- Modelled from the spec: stub dispatch — a declared method with no
attached implementation raises the defined "unimplemented" error; an
attached implementation runs (also through the bound-method wrappers). -/
def memberCall : CMember → CallResult
  | CMember.stub _ => CallResult.unimplemented
  | CMember.impl f _ => CallResult.runsImpl f
  | CMember.clsMethod inner => memberCall inner
  | CMember.statMethod inner => memberCall inner
  | CMember.prop f _ => CallResult.runsImpl f
  | CMember.plain v => CallResult.plainValue v

/-- Invoke `name` on an instance of the class `cid`. -/
def callMethod (st : MetaState) (cid : Nat) (name : String) : CallResult :=
  match getA st.heap cid with
  | none => CallResult.attrErr
  | some dc =>
    match getA dc.dict name with
    | none => CallResult.attrErr
    | some m => memberCall m

/-- An already-constructed instance: its type is the class object it was
constructed from. -/
structure Inst where
  clsId : Nat

/-- `isinstance(obj, cls)` for mutagent instances (the subclass case
plays no role in the claims considered). -/
def Inst.isInstanceOf (i : Inst) (cid : Nat) : Bool := i.clsId == cid

theorem objectMetaNew_fst (st : MetaState) (d : ClassDecl) :
    (objectMetaNew st d).1 = st.nextId := rfl

theorem objectMetaNew_nextId (st : MetaState) (d : ClassDecl) :
    ((objectMetaNew st d).2).nextId = st.nextId + 1 := rfl

theorem objectMetaNew_classRegistry (st : MetaState) (d : ClassDecl) :
    ((objectMetaNew st d).2).classRegistry = st.classRegistry := rfl

/-- The first declaration under a key registers the freshly constructed
object as canonical. -/
theorem mutagentNew_fresh (st : MetaState) (d : ClassDecl)
    (hfresh : getA st.classRegistry (d.module, d.qualname) = none) :
    mutagentNew st d = ((objectMetaNew st d).1,
      { (objectMetaNew st d).2 with
        classRegistry := setA ((objectMetaNew st d).2).classRegistry
          (d.module, d.qualname) (objectMetaNew st d).1 }) := by
  unfold mutagentNew
  dsimp only
  rw [hfresh]

/-- A later declaration under a registered key folds the new definition
into the existing canonical object and returns the existing object. -/
theorem mutagentNew_existing (st : MetaState) (d : ClassDecl) (e : Nat)
    (hreg : getA st.classRegistry (d.module, d.qualname) = some e)
    (hne : e ≠ (objectMetaNew st d).1) :
    mutagentNew st d = (e, migrateForwardpyRegistries
      (updateClassInplace (objectMetaNew st d).2 e (objectMetaNew st d).1)
      e (objectMetaNew st d).1) := by
  unfold mutagentNew
  dsimp only
  rw [hreg]
  simp [hne]

/-- C1: the first class declaration under a fresh
(module, qualified-name) key registers a canonical class object; a
second declaration under the same key returns that exact same object
(reference equality of the heap identifier), so an instance constructed
from the first declaration satisfies the instance-of check against the
class object the second declaration returned. -/
theorem C1_class_identity (st : MetaState) (d1 d2 : ClassDecl)
    (hmod : d2.module = d1.module) (hqual : d2.qualname = d1.qualname)
    (hfresh : getA st.classRegistry (d1.module, d1.qualname) = none) :
    (mutagentNew (mutagentNew st d1).2 d2).1 = (mutagentNew st d1).1 ∧
    (Inst.mk (mutagentNew st d1).1).isInstanceOf
      ((mutagentNew (mutagentNew st d1).2 d2).1) = true := by
  have h1 := mutagentNew_fresh st d1 hfresh
  have hfst : (mutagentNew st d1).1 = st.nextId := by
    rw [h1]
    rfl
  have hkey : ((mutagentNew st d1).2).classRegistry
      = setA st.classRegistry (d1.module, d1.qualname) st.nextId := by
    rw [h1]
    rfl
  have hnext : ((mutagentNew st d1).2).nextId = st.nextId + 1 := by
    rw [h1]
    rfl
  have hreg2 : getA ((mutagentNew st d1).2).classRegistry
      (d2.module, d2.qualname) = some st.nextId := by
    rw [hmod, hqual, hkey]
    exact getA_setA_self _ _ _
  have hne2 : st.nextId ≠ (objectMetaNew (mutagentNew st d1).2 d2).1 := by
    rw [objectMetaNew_fst, hnext]
    omega
  have h2 := mutagentNew_existing ((mutagentNew st d1).2) d2 st.nextId hreg2 hne2
  rw [h2, hfst]
  exact ⟨rfl, by simp [Inst.isInstanceOf]⟩

/-- The empty class-identity state of a fresh interpreter. -/
def metaInit : MetaState := ⟨[], [], 0, [], [], []⟩

def workerDecl1 : ClassDecl :=
  ⟨"test_virtual", "Worker", [("work", DeclMember.stubDecl)], none⟩

def workerDecl2 : ClassDecl :=
  ⟨"test_virtual", "Worker",
   [("work", DeclMember.stubDecl), ("rest", DeclMember.stubDecl)], none⟩

/-- Witness: declaring `Worker` twice under the same key yields the same
canonical object and the instance-of check passes. -/
theorem C1_class_identity_witness :
    (mutagentNew (mutagentNew metaInit workerDecl1).2 workerDecl2).1
      = (mutagentNew metaInit workerDecl1).1 ∧
    (Inst.mk (mutagentNew metaInit workerDecl1).1).isInstanceOf
      ((mutagentNew (mutagentNew metaInit workerDecl1).2 workerDecl2).1) = true :=
  C1_class_identity metaInit workerDecl1 workerDecl2 rfl rfl rfl

/-! ### Lemmas for the merge (claim C4) -/

theorem getA_append_left {κ α : Type} [DecidableEq κ]
    (l1 l2 : List (κ × α)) (q : κ) (v : α) (h : getA l1 q = some v) :
    getA (l1 ++ l2) q = some v := by
  induction l1 with
  | nil => cases h
  | cons kv rest ih =>
    obtain ⟨k, w⟩ := kv
    by_cases hk : k = q
    · simp [getA, hk] at h ⊢
      exact h
    · simp [getA, hk] at h ⊢
      exact ih h

theorem getA_append_right {κ α : Type} [DecidableEq κ]
    (l1 l2 : List (κ × α)) (q : κ) (h : getA l1 q = none) :
    getA (l1 ++ l2) q = getA l2 q := by
  induction l1 with
  | nil => rfl
  | cons kv rest ih =>
    obtain ⟨k, w⟩ := kv
    by_cases hk : k = q
    · simp [getA, hk] at h
    · simp [getA, hk] at h ⊢
      exact ih h

theorem getA_none_keys {κ α : Type} [DecidableEq κ]
    (l : List (κ × α)) (q : κ) :
    getA l q = none ↔ q ∉ l.map Prod.fst := by
  induction l with
  | nil => simp
  | cons kv rest ih =>
    obtain ⟨k, v⟩ := kv
    by_cases h : k = q
    · subst h; simp [getA]
    · simp [getA, h, ih, Ne.symm h]

theorem getA_reverse_of_nodup {κ α : Type} [DecidableEq κ]
    (l : List (κ × α)) (h : (l.map Prod.fst).Nodup) (q : κ) :
    getA l.reverse q = getA l q := by
  induction l with
  | nil => rfl
  | cons kv rest ih =>
    obtain ⟨k, v⟩ := kv
    rw [List.map_cons, List.nodup_cons] at h
    obtain ⟨h1, h2⟩ := h
    simp only [List.reverse_cons]
    by_cases hkq : k = q
    · subst hkq
      have hnone : getA rest.reverse k = none := by
        rw [getA_none_keys]
        rw [List.map_reverse, List.mem_reverse]
        exact h1
      rw [getA_append_right _ _ _ hnone]
      simp [getA]
    · have hrev := ih h2
      cases hr : getA rest q with
      | some w =>
        have hx : getA rest.reverse q = some w := by rw [hrev]; exact hr
        rw [getA_append_left _ _ _ _ hx]
        simp [getA, hkq, hr]
      | none =>
        have hx : getA rest.reverse q = none := by rw [hrev]; exact hr
        rw [getA_append_right _ _ _ hx]
        simp [getA, hkq, hr]

theorem mem_keys_setA {κ α : Type} [DecidableEq κ]
    (l : List (κ × α)) (k q : κ) (v : α) :
    q ∈ (setA l k v).map Prod.fst ↔ q ∈ l.map Prod.fst ∨ q = k := by
  induction l with
  | nil => simp [setA]
  | cons kv rest ih =>
    obtain ⟨k', w⟩ := kv
    by_cases h : k' = k
    · subst h; simp [setA]; tauto
    · simp [setA, h, ih]; tauto

theorem setA_keys_nodup {κ α : Type} [DecidableEq κ]
    (l : List (κ × α)) (k : κ) (v : α)
    (h : (l.map Prod.fst).Nodup) : ((setA l k v).map Prod.fst).Nodup := by
  induction l with
  | nil => simp [setA]
  | cons kv rest ih =>
    obtain ⟨k', w⟩ := kv
    rw [List.map_cons, List.nodup_cons] at h
    obtain ⟨h1, h2⟩ := h
    by_cases hk : k' = k
    · subst hk
      have e1 : setA ((k', w) :: rest) k' v = (k', v) :: rest := by
        simp [setA]
      rw [e1, List.map_cons, List.nodup_cons]
      exact ⟨h1, h2⟩
    · simp only [setA, if_neg hk, List.map_cons, List.nodup_cons]
      refine ⟨?_, ih h2⟩
      rw [mem_keys_setA]
      rintro (hm | rfl)
      · exact h1 hm
      · exact hk rfl

/-- The value the re-apply fold leaves at a name: the last registered
implementation for that name if any, the prior member otherwise. -/
theorem foldl_applyImpl_getA (cmL smL : List String) (e : Nat)
    (l : List (String × Nat)) (d0 : List (String × CMember)) (name : String) :
    getA (l.foldl (applyImplMember cmL smL e) d0) name
      = match getA l.reverse name with
        | some f => some (mkApplied cmL smL e name f)
        | none => getA d0 name := by
  induction l generalizing d0 with
  | nil => rfl
  | cons kv rest ih =>
    obtain ⟨k, g⟩ := kv
    simp only [List.foldl_cons, List.reverse_cons]
    rw [ih]
    cases hr : getA rest.reverse name with
    | some f => rw [getA_append_left _ _ _ _ hr]
    | none =>
      rw [getA_append_right _ _ _ hr]
      by_cases hk : k = name
      · subst hk
        simp [getA, applyImplMember]
      · simp [getA, hk, applyImplMember,
          getA_setA_ne _ _ _ _ (Ne.symm hk)]

theorem updateClassInplace_eq (st : MetaState) (e n : Nat)
    (de dn : ClassData)
    (h1 : getA st.heap e = some de) (h2 : getA st.heap n = some dn) :
    updateClassInplace st e n
      = { st with heap := setA st.heap e (mergedData e de dn) } := by
  unfold updateClassInplace
  rw [h1, h2]

/-- The state `_migrate_forwardpy_registries` produces in the
redefinition scenario (fresh class `n` present in all three
registries, canonical class `e` live on the heap). -/
def migratedState (st : MetaState) (e n : Nat) (de : ClassData)
    (RN : List (String × Nat)) (RA : List String)
    (RP : List (String × (Nat × Nat))) : MetaState :=
  let mergedReg := RN.foldl (fun acc (kv : String × Nat) => setA acc kv.1 kv.2) ((getA (removeA st.methodRegistry n) e).getD [])
  let dict2 := mergedReg.foldl (applyImplMember de.declaredCM de.declaredSM e) de.dict
  let props2 := RP.map (fun (kv : String × (Nat × Nat)) => (kv.1, (kv.2.1, e)))
  { st with
    methodRegistry := setA (removeA st.methodRegistry n) e mergedReg,
    heap := setA st.heap e { de with dict := dict2 },
    attributeRegistry := setA (removeA st.attributeRegistry n) e RA,
    propertyRegistry := setA (removeA st.propertyRegistry n) e props2 }

theorem migrateForwardpyRegistries_eq (st : MetaState) (e n : Nat)
    (RN : List (String × Nat)) (de : ClassData) (RA : List String)
    (RP : List (String × (Nat × Nat)))
    (hmrn : getA st.methodRegistry n = some RN)
    (hhe : getA st.heap e = some de)
    (harn : getA st.attributeRegistry n = some RA)
    (hprn : getA st.propertyRegistry n = some RP) :
    migrateForwardpyRegistries st e n = migratedState st e n de RN RA RP := by
  unfold migrateForwardpyRegistries migratedState
  rw [hmrn]
  try dsimp only
  rw [hhe]
  try dsimp only
  rw [getA_setA_self]
  try dsimp only
  rw [harn]
  try dsimp only
  rw [hprn]
  rfl

/-- The state `@impl` attachment produces when the class is live. -/
def attachedState (st : MetaState) (e : Nat) (de : ClassData)
    (name : String) (f : Nat) : MetaState :=
  { st with
    methodRegistry := setA st.methodRegistry e (setA ((getA st.methodRegistry e).getD []) name f),
    heap := setA st.heap e { de with dict := applyImplMember de.declaredCM de.declaredSM e de.dict (name, f) } }

theorem attachImpl_eq (st : MetaState) (e : Nat) (de : ClassData)
    (name : String) (f : Nat) (hheap : getA st.heap e = some de) :
    attachImpl st e name f = attachedState st e de name f := by
  unfold attachImpl attachedState
  rw [hheap]

/-- The redefinition of `Worker` adding a second stub. -/
def workerRedecl (m q : String) : ClassDecl :=
  ⟨m, q, [("work", DeclMember.stubDecl), ("rest", DeclMember.stubDecl)], none⟩

/-- C4: when a class is redeclared under an existing key, the
previously attached implementation of `work` survives — the attached
registry is merged and re-applied over the transplanted stubs, so the
fresh stub never shadows it — while the newly declared stub `rest`,
having no attached implementation, raises the unimplemented error when
called; more generally every previously registered implementation (for
any name the new declaration does not freshly implement) keeps running. -/
theorem C4_merge_fidelity (st : MetaState) (m q : String) (e : Nat)
    (de : ClassData) (f : Nat)
    (hreg : getA st.classRegistry (m, q) = some e)
    (hheap : getA st.heap e = some de)
    (hne : e ≠ st.nextId)
    (hnodup : (((getA st.methodRegistry e).getD []).map Prod.fst).Nodup)
    (hrest : getA ((getA st.methodRegistry e).getD []) "rest" = none) :
    (mutagentNew (attachImpl st e "work" f) (workerRedecl m q)).1 = e ∧
    callMethod (mutagentNew (attachImpl st e "work" f) (workerRedecl m q)).2
      e "work" = CallResult.runsImpl f ∧
    callMethod (mutagentNew (attachImpl st e "work" f) (workerRedecl m q)).2
      e "rest" = CallResult.unimplemented ∧
    (∀ nm g, getA ((getA st.methodRegistry e).getD []) nm = some g →
      nm ≠ "work" →
      callMethod (mutagentNew (attachImpl st e "work" f) (workerRedecl m q)).2
        e nm = CallResult.runsImpl g) := by
  have ha := attachImpl_eq st e de "work" f hheap
  rw [ha]
  have hreg1 : getA (attachedState st e de "work" f).classRegistry
      ((workerRedecl m q).module, (workerRedecl m q).qualname) = some e := hreg
  have hne1 : e ≠ (objectMetaNew (attachedState st e de "work" f)
      (workerRedecl m q)).1 := hne
  have h2 := mutagentNew_existing (attachedState st e de "work" f)
    (workerRedecl m q) e hreg1 hne1
  rw [h2]
  refine ⟨rfl, ?_⟩
  -- characterize the in-place update
  have hOheapE : getA ((objectMetaNew (attachedState st e de "work" f)
      (workerRedecl m q)).2).heap e
      = some { de with dict := applyImplMember de.declaredCM de.declaredSM e de.dict ("work", f) } := by
    show getA (setA (attachedState st e de "work" f).heap st.nextId _) e = _
    rw [getA_setA_ne _ _ _ _ hne]
    exact getA_setA_self _ _ _
  have hOheapN : getA ((objectMetaNew (attachedState st e de "work" f)
      (workerRedecl m q)).2).heap
      ((objectMetaNew (attachedState st e de "work" f) (workerRedecl m q)).1)
      = some (objClassData st.nextId (workerRedecl m q)) := by
    exact getA_setA_self _ _ _
  have hU := updateClassInplace_eq _ e _ _ _ hOheapE hOheapN
  rw [hU]
  -- characterize the registry migration
  have hmrn : getA ({ (objectMetaNew (attachedState st e de "work" f)
        (workerRedecl m q)).2 with
      heap := setA ((objectMetaNew (attachedState st e de "work" f)
        (workerRedecl m q)).2).heap e
        (mergedData e { de with dict := applyImplMember de.declaredCM de.declaredSM e de.dict ("work", f) }
          (objClassData st.nextId (workerRedecl m q))) }).methodRegistry
      ((objectMetaNew (attachedState st e de "work" f) (workerRedecl m q)).1)
      = some [] := by
    exact getA_setA_self _ _ _
  have hhe2 : getA ({ (objectMetaNew (attachedState st e de "work" f)
        (workerRedecl m q)).2 with
      heap := setA ((objectMetaNew (attachedState st e de "work" f)
        (workerRedecl m q)).2).heap e
        (mergedData e { de with dict := applyImplMember de.declaredCM de.declaredSM e de.dict ("work", f) }
          (objClassData st.nextId (workerRedecl m q))) }).heap e
      = some (mergedData e { de with dict := applyImplMember de.declaredCM de.declaredSM e de.dict ("work", f) }
          (objClassData st.nextId (workerRedecl m q))) := by
    exact getA_setA_self _ _ _
  have harn : getA ({ (objectMetaNew (attachedState st e de "work" f)
        (workerRedecl m q)).2 with
      heap := setA ((objectMetaNew (attachedState st e de "work" f)
        (workerRedecl m q)).2).heap e
        (mergedData e { de with dict := applyImplMember de.declaredCM de.declaredSM e de.dict ("work", f) }
          (objClassData st.nextId (workerRedecl m q))) }).attributeRegistry
      ((objectMetaNew (attachedState st e de "work" f) (workerRedecl m q)).1)
      = some [] := by
    exact getA_setA_self _ _ _
  have hprn : getA ({ (objectMetaNew (attachedState st e de "work" f)
        (workerRedecl m q)).2 with
      heap := setA ((objectMetaNew (attachedState st e de "work" f)
        (workerRedecl m q)).2).heap e
        (mergedData e { de with dict := applyImplMember de.declaredCM de.declaredSM e de.dict ("work", f) }
          (objClassData st.nextId (workerRedecl m q))) }).propertyRegistry
      ((objectMetaNew (attachedState st e de "work" f) (workerRedecl m q)).1)
      = some [] := by
    exact getA_setA_self _ _ _
  have hM := migrateForwardpyRegistries_eq _ e _ _ _ _ _ hmrn hhe2 harn hprn
  rw [hM]
  unfold migratedState callMethod
  dsimp only
  rw [getA_setA_self]
  unfold objectMetaNew attachedState workerRedecl mergedData objClassData
  dsimp only
  rw [getA_removeA_ne _ _ _ hne, getA_setA_ne _ _ _ _ hne, getA_setA_self]
  simp only [List.foldl_nil, Option.getD_some]
  refine ⟨?_, ?_, ?_⟩
  · rw [foldl_applyImpl_getA,
      getA_reverse_of_nodup _ (setA_keys_nodup _ _ _ hnodup),
      getA_setA_self]
    rfl
  · rw [foldl_applyImpl_getA,
      getA_reverse_of_nodup _ (setA_keys_nodup _ _ _ hnodup),
      getA_setA_ne _ _ _ _ (by decide), hrest]
    simp [List.foldl, List.filter, List.map, memS, skipAttrs, repointMember,
      memberCall]
  · intro nm g hg hnw
    rw [foldl_applyImpl_getA,
      getA_reverse_of_nodup _ (setA_keys_nodup _ _ _ hnodup),
      getA_setA_ne _ _ _ _ hnw, hg]
    rfl

def stC4 : MetaState := (mutagentNew metaInit workerDecl1).2

/-- Witness for C4: the concrete `Worker` scenario of the test-suite —
attach an implementation for `work`, redeclare with the extra stub
`rest`; `work` still runs the implementation, `rest` raises. -/
theorem C4_merge_fidelity_witness :
    (mutagentNew (attachImpl stC4 0 "work" 42)
      (workerRedecl "test_virtual" "Worker")).1 = 0 ∧
    callMethod (mutagentNew (attachImpl stC4 0 "work" 42)
      (workerRedecl "test_virtual" "Worker")).2 0 "work"
      = CallResult.runsImpl 42 ∧
    callMethod (mutagentNew (attachImpl stC4 0 "work" 42)
      (workerRedecl "test_virtual" "Worker")).2 0 "rest"
      = CallResult.unimplemented ∧
    (∀ nm g, getA ((getA stC4.methodRegistry 0).getD []) nm = some g →
      nm ≠ "work" →
      callMethod (mutagentNew (attachImpl stC4 0 "work" 42)
        (workerRedecl "test_virtual" "Worker")).2 0 nm
        = CallResult.runsImpl g) :=
  C4_merge_fidelity stC4 "test_virtual" "Worker" 0
    (objClassData 0 workerDecl1) 42 rfl rfl (by decide) (by decide) rfl

/-! ### `get_history` returns a fresh copy (claim C10)

Python lists are mutable objects handled by reference;
`ModuleManager.get_history` (module_manager.py lines 118-120) returns
`list(self._history.get(module_path, []))` — a freshly allocated list
object. To make the aliasing distinction expressible, list objects live
here in an explicit heap of cells indexed by handles: the manager's
`_history` maps each path to the handle of its stored record list, and
`get_history` allocates a new cell holding a copy of the stored
contents and returns that fresh handle. -/

def cellGet : List (List PatchRecord) → Nat → List PatchRecord
  | [], _ => []
  | c :: _, 0 => c
  | _ :: rest, n + 1 => cellGet rest n

def cellSet : List (List PatchRecord) → Nat → List PatchRecord →
    List (List PatchRecord)
  | [], _, _ => []
  | _ :: rest, 0, v => v :: rest
  | c :: rest, n + 1, v => c :: cellSet rest n v

/-- The heap of live list objects. -/
structure ListHeap where
  cells : List (List PatchRecord)

def ListHeap.readCell (h : ListHeap) (i : Nat) : List PatchRecord :=
  cellGet h.cells i

/-- In-place mutation of a list object (append/remove/reorder all amount
to writing new contents into the same cell). -/
def ListHeap.writeCell (h : ListHeap) (i : Nat) (v : List PatchRecord) :
    ListHeap :=
  ⟨cellSet h.cells i v⟩

/-- Allocation of a fresh list object. -/
def ListHeap.alloc (h : ListHeap) (v : List PatchRecord) : Nat × ListHeap :=
  (h.cells.length, ⟨h.cells ++ [v]⟩)

/-- The manager's state at the reference level: `_history` maps paths to
handles of stored list objects; `_versions` is plain data. -/
structure MgrRef where
  historyRefs : List (String × Nat)
  versions : List (String × Nat)

/-- Embedding of `ModuleManager.get_history` at the reference level:
`list(self._history.get(module_path, []))` — read the stored cell and
allocate a fresh cell with a copy of its contents. -/
def getHistoryRef (mgr : MgrRef) (h : ListHeap) (p : String) :
    Nat × ListHeap :=
  let stored := match getA mgr.historyRefs p with
    | some r => h.readCell r
    | none => []
  h.alloc stored

theorem cellGet_cellSet_ne (l : List (List PatchRecord)) (i j : Nat)
    (v : List PatchRecord) (h : j ≠ i) :
    cellGet (cellSet l i v) j = cellGet l j := by
  induction l generalizing i j with
  | nil => rfl
  | cons c rest ih =>
    cases i with
    | zero =>
      cases j with
      | zero => exact absurd rfl h
      | succ j' => rfl
    | succ i' =>
      cases j with
      | zero => rfl
      | succ j' => exact ih i' j' (fun he => h (by rw [he]))

theorem cellGet_append_lt (l : List (List PatchRecord))
    (x : List PatchRecord) (j : Nat) (h : j < l.length) :
    cellGet (l ++ [x]) j = cellGet l j := by
  induction l generalizing j with
  | nil => cases h
  | cons c rest ih =>
    cases j with
    | zero => rfl
    | succ j' => exact ih j' (by simpa using h)

theorem cellGet_append_self (l : List (List PatchRecord))
    (x : List PatchRecord) : cellGet (l ++ [x]) l.length = x := by
  induction l with
  | nil => rfl
  | cons c rest ih => simpa using ih

theorem cellSet_append_self (l : List (List PatchRecord))
    (x v : List PatchRecord) : cellSet (l ++ [x]) l.length v = l ++ [v] := by
  induction l with
  | nil => rfl
  | cons c rest ih => simp [cellSet, ih]

/-- C10: the list object `get_history` returns is fresh — distinct from
the stored one — so writing any contents into it leaves the stored
history cell unchanged, and a subsequent `get_history` still returns the
original records (the manager itself, including its version table, is
not touched by the mutation at all). -/
theorem C10_get_history_copy (mgr : MgrRef) (h : ListHeap) (p : String)
    (r : Nat) (href : getA mgr.historyRefs p = some r)
    (hvalid : r < h.cells.length) (v : List PatchRecord) :
    (getHistoryRef mgr h p).1 ≠ r ∧
    (((getHistoryRef mgr h p).2).writeCell (getHistoryRef mgr h p).1 v).readCell r
      = h.readCell r ∧
    (getHistoryRef mgr (((getHistoryRef mgr h p).2).writeCell
        (getHistoryRef mgr h p).1 v) p).2.readCell
      (getHistoryRef mgr (((getHistoryRef mgr h p).2).writeCell
        (getHistoryRef mgr h p).1 v) p).1
      = h.readCell r := by
  have hfst : (getHistoryRef mgr h p).1 = h.cells.length := rfl
  have hcells : ((getHistoryRef mgr h p).2).cells
      = h.cells ++ [h.readCell r] := by
    unfold getHistoryRef
    rw [href]
    rfl
  have hc2 : (((getHistoryRef mgr h p).2).writeCell
      (getHistoryRef mgr h p).1 v).cells = h.cells ++ [v] := by
    show cellSet ((getHistoryRef mgr h p).2).cells
      (getHistoryRef mgr h p).1 v = _
    rw [hfst, hcells, cellSet_append_self]
  have hstored : (((getHistoryRef mgr h p).2).writeCell
      (getHistoryRef mgr h p).1 v).readCell r = h.readCell r := by
    show cellGet _ r = _
    rw [hc2]
    exact cellGet_append_lt _ _ _ hvalid
  refine ⟨?_, hstored, ?_⟩
  · rw [hfst]
    omega
  · have hall : getHistoryRef mgr (((getHistoryRef mgr h p).2).writeCell
        (getHistoryRef mgr h p).1 v) p
        = ((((getHistoryRef mgr h p).2).writeCell (getHistoryRef mgr h p).1 v).cells.length,
           ListHeap.mk ((((getHistoryRef mgr h p).2).writeCell (getHistoryRef mgr h p).1 v).cells
             ++ [(((getHistoryRef mgr h p).2).writeCell (getHistoryRef mgr h p).1 v).readCell r])) := by
      unfold getHistoryRef
      rw [href]
      rfl
    rw [hall]
    show cellGet ((((getHistoryRef mgr h p).2).writeCell (getHistoryRef mgr h p).1 v).cells
        ++ [(((getHistoryRef mgr h p).2).writeCell (getHistoryRef mgr h p).1 v).readCell r])
      (((getHistoryRef mgr h p).2).writeCell (getHistoryRef mgr h p).1 v).cells.length
      = h.readCell r
    rw [cellGet_append_self, hstored]

def mgrC10 : MgrRef := ⟨[("pkg.calc", 0)], [("pkg.calc", 2)]⟩

def heapC10 : ListHeap :=
  ⟨[[⟨"pkg.calc", "a = 1", 1, "mutagent://pkg.calc"⟩,
     ⟨"pkg.calc", "b = 2", 2, "mutagent://pkg.calc"⟩]]⟩

/-- Witness for C10 at a concrete two-record history. -/
theorem C10_get_history_copy_witness :
    (getHistoryRef mgrC10 heapC10 "pkg.calc").1 ≠ 0 ∧
    (((getHistoryRef mgrC10 heapC10 "pkg.calc").2).writeCell
      (getHistoryRef mgrC10 heapC10 "pkg.calc").1 []).readCell 0
      = heapC10.readCell 0 ∧
    (getHistoryRef mgrC10 (((getHistoryRef mgrC10 heapC10 "pkg.calc").2).writeCell
        (getHistoryRef mgrC10 heapC10 "pkg.calc").1 []) "pkg.calc").2.readCell
      (getHistoryRef mgrC10 (((getHistoryRef mgrC10 heapC10 "pkg.calc").2).writeCell
        (getHistoryRef mgrC10 heapC10 "pkg.calc").1 []) "pkg.calc").1
      = heapC10.readCell 0 :=
  C10_get_history_copy mgrC10 heapC10 "pkg.calc" 0 rfl (by decide) []

end Mutagent
